import Mathlib

set_option maxHeartbeats 1000000

/-!
Verification development for the `fileconv/dumpers.py` module of the
AAAPackageDev package (format-conversion dumpers: JSON, Property List, YAML).

The Python module is shallowly embedded as follows.

* `Value` models the nested data values the dumpers operate on: Python
  strings, ints, bools, `None`, `datetime.date`, `datetime.datetime`,
  `plistlib.Data` blobs (whose payload is kept as a string), dicts
  (with string keys, in insertion/iteration order), `plistlib._InternalDict`,
  lists, tuples, and sets (kept as their element sequence in the
  implementation-defined iteration order).
* `pyEq` models Python `==` on these values: `True == 1`, `False == 0`,
  `plistlib.Data` compares equal to an equal plain string (its `__cmp__`
  falls back to comparing `self.data` with a `str`), dict equality is
  key-based and order-insensitive, set equality is mutual containment.
* A sanitization rule (`Rule`) is an `(is_invalid, validate)` pair as in
  `DumperProto._validate_data`; a rule's second component is an arbitrary
  Python object, so it is either a callable (`Validator.fn`, which may
  itself raise) or a non-callable constant (`Validator.nonCallable`),
  whose application raises `TypeError`.
* `checkRec` embeds the inner `check_recursive` closure of
  `DumperProto._validate_data`, threading the `checked` list explicitly.
  In-place mutation is modelled functionally: an object is appended to
  `checked` when first visited, and — matching the aliasing of CPython
  references — the entry of a mutable container (dict / `_InternalDict` /
  list / set) is replaced by the container's final mutated form when its
  processing finishes (tuples are rebuilt, not mutated, so their entry
  stays the original; scalars are rebound, not mutated).  The `fuel`
  parameter models CPython's recursion limit: running out of fuel is
  `PyErr.recursionLimit`, the `RuntimeError` CPython raises on too-deep
  recursion (reachable here because a rule's transform may grow values).
* Set mutation during iteration is modelled by iterating over a snapshot
  of the element sequence while removing/adding on the current contents,
  with `pyEq`-based membership, as in `set.remove` / `set.add`.
* `dump` embeds `DumperProto.dump`, parameterized by the dumper's
  `validate_data` and `write` behaviours; the output panel is the list of
  written lines plus a visibility flag.  A `Value → Except PyErr _`
  result models an exception propagating out of a call.
* The module-level registry loop (`get`) is embedded as a fold over the
  alphabetically sorted `dir()` listing of the module at that point.
-/

/-- Python values handled by the dumpers' sanitizer.  Dict keys are kept as
plain strings (the dumpers never sanitize keys). -/
inductive Value where
  | vstr (s : String)
  | vint (n : Int)
  | vbool (b : Bool)
  | vnone
  | vdate (n : Nat)
  | vdatetime (n : Nat)
  | vdata (s : String)
  | vdict (es : List (String × Value))
  | vidict (es : List (String × Value))
  | vlist (xs : List Value)
  | vtuple (xs : List Value)
  | vset (xs : List Value)

mutual

/-- Structural size of a value (used as the recursion budget for `pyEq`
and to bound the sanitizer's fuel). -/
def pySize : Value → Nat
  | .vdict es => 1 + pySizeEntries es
  | .vidict es => 1 + pySizeEntries es
  | .vlist xs => 1 + pySizeList xs
  | .vtuple xs => 1 + pySizeList xs
  | .vset xs => 1 + pySizeList xs
  | _ => 1
termination_by structural x => x

/-- Size of a list of values. -/
def pySizeList : List Value → Nat
  | [] => 0
  | x :: xs => 1 + pySize x + pySizeList xs
termination_by structural x => x

/-- Size of a dict entry list. -/
def pySizeEntries : List (String × Value) → Nat
  | [] => 0
  | (_, v) :: rest => 1 + pySize v + pySizeEntries rest
termination_by structural x => x

end

mutual

/-- Python `==` on embedded values, with an explicit recursion budget so the
definition is structurally recursive (and hence computes by kernel
reduction).  Booleans compare equal to the ints 0/1; `plistlib.Data`
compares equal to a plain string with the same payload (its Python 2
`__cmp__` falls back to comparing `self.data` with a `str`); dict and set
equality follow CPython: a length check plus a one-directional
containment/lookup pass.  `pyEq` below always supplies enough budget (the `pySize` sum
strictly dominates every recursive step). -/
def pyEqN : Nat → Value → Value → Bool
  | 0, _, _ => false
  | _ + 1, .vstr a, .vstr b => a == b
  | _ + 1, .vstr a, .vdata b => a == b
  | _ + 1, .vdata a, .vstr b => a == b
  | _ + 1, .vdata a, .vdata b => a == b
  | _ + 1, .vint a, .vint b => a == b
  | _ + 1, .vint a, .vbool b => a == (if b then (1 : Int) else 0)
  | _ + 1, .vbool a, .vint b => (if a then (1 : Int) else 0) == b
  | _ + 1, .vbool a, .vbool b => a == b
  | _ + 1, .vnone, .vnone => true
  | _ + 1, .vdate a, .vdate b => a == b
  | _ + 1, .vdatetime a, .vdatetime b => a == b
  | n + 1, .vdict a, .vdict b => a.length == b.length && pyDictSubN n a b
  | n + 1, .vdict a, .vidict b => a.length == b.length && pyDictSubN n a b
  | n + 1, .vidict a, .vdict b => a.length == b.length && pyDictSubN n a b
  | n + 1, .vidict a, .vidict b => a.length == b.length && pyDictSubN n a b
  | n + 1, .vlist a, .vlist b => pyEqListN n a b
  | n + 1, .vtuple a, .vtuple b => pyEqListN n a b
  | n + 1, .vset a, .vset b => a.length == b.length && pySetSubN n a b
  | _ + 1, _, _ => false

/-- Elementwise Python `==` of two sequences. -/
def pyEqListN : Nat → List Value → List Value → Bool
  | _, [], [] => true
  | 0, _ :: _, _ => false
  | 0, _, _ :: _ => false
  | n + 1, a :: as, b :: bs => pyEqN n a b && pyEqListN n as bs
  | _ + 1, _ :: _, [] => false
  | _ + 1, [], _ :: _ => false

/-- Every entry of the first dict is present, with a `==` value, in the
second. -/
def pyDictSubN : Nat → List (String × Value) → List (String × Value) → Bool
  | _, [], _ => true
  | 0, _ :: _, _ => false
  | n + 1, (k, v) :: rest, b => pyFindEqN n k v b && pyDictSubN n rest b

/-- Key `k` is present in the entry list and maps to a value `==` to `v`. -/
def pyFindEqN : Nat → String → Value → List (String × Value) → Bool
  | _, _, _, [] => false
  | 0, _, _, _ :: _ => false
  | n + 1, k, v, (k2, w) :: rest => if k == k2 then pyEqN n v w else pyFindEqN n k v rest

/-- Every element of the first list is a `pyEq`-member of the second. -/
def pySetSubN : Nat → List Value → List Value → Bool
  | _, [], _ => true
  | 0, _ :: _, _ => false
  | n + 1, a :: as, b => pyMemN n a b && pySetSubN n as b

/-- Python `in`: membership by `==`. -/
def pyMemN : Nat → Value → List Value → Bool
  | _, _, [] => false
  | 0, _, _ :: _ => false
  | n + 1, a, b :: bs => pyEqN n a b || pyMemN n a bs

end

/-- Python `==`: the budget `sizeOf a + sizeOf b` strictly dominates every
recursive step of `pyEqN`, so the comparison never hits the `0` cutoff. -/
def pyEq (a b : Value) : Bool :=
  pyEqN (pySize a + pySize b) a b

/-- Exceptions that the embedded code can raise. -/
inductive PyErr where
  | typeError
  | attributeError
  | recursionLimit
  | err (msg : String)

/-- The second component of a sanitization rule: any Python object.  Calling
a non-callable raises `TypeError`. -/
inductive Validator where
  | fn (g : Value → Except PyErr Value)
  | nonCallable (c : Value)

/-- One `(is_invalid, validate)` pair from a dumper's rule list. -/
structure Rule where
  is_invalid : Value → Bool
  validate : Validator

/-- The rule-application loop at the top of `check_recursive`:
`for is_invalid, validate in funcs: if is_invalid(obj): obj = validate(obj)`.
Returns whether any rule fired (i.e. whether `obj` was rebound to a fresh
object) together with the resulting object. -/
def applyRules : List Rule → Value → Except PyErr (Bool × Value)
  | [], v => .ok (false, v)
  | r :: rs, v =>
    if r.is_invalid v then
      match r.validate with
      | .fn g =>
        match g v with
        | .error e => .error e
        | .ok v2 =>
          match applyRules rs v2 with
          | .error e => .error e
          | .ok (_, v3) => .ok (true, v3)
      | .nonCallable _ => .error .typeError
    else
      match applyRules rs v with
      | .error e => .error e
      | .ok (b, v2) => .ok (b, v2)

/-- `set.remove(val)`: drop the element `==` to `val`. -/
def pyRemove (cur : List Value) (val : Value) : List Value :=
  cur.filter (fun t => !(pyEq t val))

/-- `set.add(nv)`: insert `nv` unless an `==` element is already present. -/
def pyAdd (cur : List Value) (nv : Value) : List Value :=
  if cur.any (fun t => pyEq nv t) then cur else cur ++ [nv]

mutual

/-- The `check_recursive` closure of `DumperProto._validate_data`.
`c` is the `checked` list (current contents of the objects it references);
the result pairs the returned value with the final `checked` list.
An early `return` on an already-visited object yields Python `None`.
The `fuel` budget makes the recursion structural; it models CPython's
recursion limit (`PyErr.recursionLimit` is the `RuntimeError` CPython
raises on too-deep recursion, genuinely reachable here because a rule's
transform may grow values).  Any run that terminates in Python is
reproduced for every sufficiently large budget. -/
def checkRec : Nat → List Rule → List Value → Value → Except PyErr (Value × List Value)
  | 0, _, _, _ => .error .recursionLimit
  | fuel + 1, funcs, c, obj =>
    if c.any (fun t => pyEq obj t) then .ok (.vnone, c)
    else
      let idx := c.length
      let c1 := c ++ [obj]
      match applyRules funcs obj with
      | .error e => .error e
      | .ok (fired, o) =>
        match o with
        | .vdict es =>
          match checkEntries fuel funcs c1 es with
          | .error e => .error e
          | .ok (es2, c2) =>
            let res := Value.vdict es2
            .ok (res, if fired then c2 else c2.set idx res)
        | .vidict es =>
          match checkEntries fuel funcs c1 es with
          | .error e => .error e
          | .ok (es2, c2) =>
            let res := Value.vidict es2
            .ok (res, if fired then c2 else c2.set idx res)
        | .vlist xs =>
          match checkList fuel funcs c1 xs with
          | .error e => .error e
          | .ok (xs2, c2) =>
            let res := Value.vlist xs2
            .ok (res, if fired then c2 else c2.set idx res)
        | .vtuple xs =>
          match checkList fuel funcs c1 xs with
          | .error e => .error e
          | .ok (xs2, c2) => .ok (.vtuple xs2, c2)
        | .vset xs =>
          match checkSet fuel funcs c1 xs xs with
          | .error e => .error e
          | .ok (xs2, c2) =>
            let res := Value.vset xs2
            .ok (res, if fired then c2 else c2.set idx res)
        | o => .ok (o, c1)

/-- `for key in obj: obj[key] = check_recursive(obj[key])` over dict entries. -/
def checkEntries : Nat → List Rule → List Value → List (String × Value) →
    Except PyErr (List (String × Value) × List Value)
  | _, _, c, [] => .ok ([], c)
  | 0, _, _, _ :: _ => .error .recursionLimit
  | fuel + 1, funcs, c, (k, v) :: rest =>
    match checkRec fuel funcs c v with
    | .error e => .error e
    | .ok (v2, c2) =>
      match checkEntries fuel funcs c2 rest with
      | .error e => .error e
      | .ok (rest2, c3) => .ok ((k, v2) :: rest2, c3)

/-- `for i in range(len(obj)): obj[i] = check_recursive(obj[i])`, also used to
rebuild tuples. -/
def checkList : Nat → List Rule → List Value → List Value →
    Except PyErr (List Value × List Value)
  | _, _, c, [] => .ok ([], c)
  | 0, _, _, _ :: _ => .error .recursionLimit
  | fuel + 1, funcs, c, x :: xs =>
    match checkRec fuel funcs c x with
    | .error e => .error e
    | .ok (x2, c2) =>
      match checkList fuel funcs c2 xs with
      | .error e => .error e
      | .ok (xs2, c3) => .ok (x2 :: xs2, c3)

/-- The set branch: iterate over a snapshot of the elements (`todo`),
updating the current contents (`cur`) by `remove`/`add` whenever a
sanitized element differs from the original. -/
def checkSet : Nat → List Rule → List Value → List Value → List Value →
    Except PyErr (List Value × List Value)
  | _, _, c, cur, [] => .ok (cur, c)
  | 0, _, _, _, _ :: _ => .error .recursionLimit
  | fuel + 1, funcs, c, cur, val :: rest =>
    match checkRec fuel funcs c val with
    | .error e => .error e
    | .ok (nv, c2) =>
      let cur2 := if pyEq nv val then cur else pyAdd (pyRemove cur val) nv
      checkSet fuel funcs c2 cur2 rest

end

/-- `DumperProto._validate_data(self, data, funcs)`: run `check_recursive`
on `data` with an initially empty `checked` list. -/
def _validate_data (fuel : Nat) (data : Value) (funcs : List Rule) :
    Except PyErr Value :=
  match checkRec fuel funcs [] data with
  | .error e => .error e
  | .ok (v, _) => .ok v

/-- `isinstance(x, datetime.date)`; `datetime.datetime` is a `date`
subclass, so it matches both. -/
def isDateB : Value → Bool
  | .vdate _ => true
  | .vdatetime _ => true
  | _ => false

/-- `isinstance(x, datetime.datetime)`. -/
def isDatetimeB : Value → Bool
  | .vdatetime _ => true
  | _ => false

/-- `isinstance(x, plistlib.Data)`. -/
def isDataB : Value → Bool
  | .vdata _ => true
  | _ => false

/-- `isinstance(x, plistlib._InternalDict)`. -/
def isIdictB : Value → Bool
  | .vidict _ => true
  | _ => false

/-- `x is None`. -/
def isNoneB : Value → Bool
  | .vnone => true
  | _ => false

/-- Is the value a Python string. -/
def isStrB : Value → Bool
  | .vstr _ => true
  | _ => false

/-- `str()` of an embedded value: total, always returns a string.  Only its
action on date/datetime values matters to the rules; it is kept injective
there (default stringification of distinct dates differs). -/
def pyStrFn : Value → Value
  | .vdate n => .vstr ("date-" ++ Nat.repr n)
  | .vdatetime n => .vstr ("datetime-" ++ Nat.repr n)
  | _ => .vstr ""

/-- `lambda x: x.data`: the payload of a `plistlib.Data`; raises
`AttributeError` on anything else. -/
def dataAttrFn : Value → Except PyErr Value
  | .vdata s => .ok (.vstr s)
  | _ => .error .attributeError

/-- `dict(x)`: rebuild a (sub)dict as a plain dict with the same entries. -/
def dictFn : Value → Except PyErr Value
  | .vidict es => .ok (.vdict es)
  | .vdict es => .ok (.vdict es)
  | _ => .error .typeError

/-- The rule list of `JSONDumper.validate_data`. -/
def jsonFuncs : List Rule :=
  [⟨isDataB, .fn dataAttrFn⟩,
   ⟨isDateB, .fn (fun v => .ok (pyStrFn v))⟩,
   ⟨isDatetimeB, .fn (fun v => .ok (pyStrFn v))⟩]

/-- The rule list of `PlistDumper.validate_data`.  Note that the second
rule's `validate` component is the constant `False`, not a callable. -/
def plistFuncs : List Rule :=
  [⟨isDateB, .fn (fun v => .ok (pyStrFn v))⟩,
   ⟨isNoneB, .nonCallable (.vbool false)⟩]

/-- The rule list of `YAMLDumper.validate_data`. -/
def yamlFuncs : List Rule :=
  [⟨isIdictB, .fn dictFn⟩,
   ⟨isDataB, .fn dataAttrFn⟩]

/-- `JSONDumper.validate_data`. -/
def JSONDumper.validate_data (fuel : Nat) (data : Value) : Except PyErr Value :=
  _validate_data fuel data jsonFuncs

/-- `PlistDumper.validate_data`. -/
def PlistDumper.validate_data (fuel : Nat) (data : Value) : Except PyErr Value :=
  _validate_data fuel data plistFuncs

/-- `YAMLDumper.validate_data`. -/
def YAMLDumper.validate_data (fuel : Nat) (data : Value) : Except PyErr Value :=
  _validate_data fuel data yamlFuncs

/-- The base `DumperProto.validate_data`: its body is `pass`, so the call
returns Python `None` whatever the data is. -/
def DumperProto.validate_data (data : Value) : Value :=
  Value.vnone

/-- `DumperProto.name` / `ext` and the concrete dumpers' class attributes. -/
def DumperProto.name : String := ""

def DumperProto.ext : String := ""

def DumperProto.output_panel_name : String := "aaa_package_dev"

def JSONDumper.name : String := "JSON"

def JSONDumper.ext : String := "json"

def PlistDumper.name : String := "Property List"

def PlistDumper.ext : String := "plist"

def YAMLDumper.name : String := "YAML"

def YAMLDumper.ext : String := "yaml"

/-- The per-conversion state of a dumper that `dump` touches: its display
name, the target path, and the output panel (written lines plus whether
`show()` has been called). -/
structure DumperState where
  name : String
  new_file_path : String
  output : List String
  shown : Bool

/-- `"Writing %s... (%s)" % (self.name, self.new_file_path)`. -/
def progressLine (name path : String) : String :=
  "Writing " ++ name ++ "... (" ++ path ++ ")"

/-- `str(e)` for an exception. -/
def errMsg : PyErr → String
  | .typeError => "'bool' object is not callable"
  | .attributeError => "'str' object has no attribute 'data'"
  | .recursionLimit => "maximum recursion depth exceeded"
  | .err m => m

/-- `"Error writing %s: %s" % (self.name, e)`. -/
def errorLine (name msg : String) : String :=
  "Error writing " ++ name ++ ": " ++ msg

/-- How a call to `dump` ends: a normal return (`True`, or the implicit
`None` of the fall-through path, i.e. `false` here) or an uncaught
exception propagating to the caller. -/
inductive DumpResult where
  | ret (b : Bool)
  | raised (e : PyErr)

/-- Result of `dump` together with the dumper's final output-panel state. -/
structure DumpOut where
  result : DumpResult
  st : DumperState

/-- `DumperProto.dump`: write the progress line, `show()` the panel, run
`validate_data` (outside any handler), then `try: self.write(...)`;
a `write` exception is logged as an error line and the function falls
through returning `None`, otherwise it returns `True`. -/
def dump (validate : Value → Except PyErr Value)
    (write : Value → Except PyErr Unit)
    (st : DumperState) (data : Value) : DumpOut :=
  let st1 : DumperState :=
    { st with output := st.output ++ [progressLine st.name st.new_file_path],
              shown := true }
  match validate data with
  | .error e => ⟨.raised e, st1⟩
  | .ok d =>
    match write d with
    | .error e =>
      ⟨.ret false, { st1 with output := st1.output ++ [errorLine st1.name (errMsg e)] }⟩
    | .ok _ => ⟨.ret true, st1⟩

/-- The classes visible in the module's namespace when the registry loop
runs. -/
inductive PyClass where
  | dumperProto
  | jsonDumper
  | plistDumper
  | yamlDumper
  | outputPanel
deriving DecidableEq

/-- `issubclass(t, DumperProto)`. -/
def derivesDumperProto : PyClass → Bool
  | .outputPanel => false
  | _ => true

/-- `t is DumperProto`. -/
def isProto : PyClass → Bool
  | .dumperProto => true
  | _ => false

/-- `t.ext` (only read for `DumperProto` subclasses). -/
def extOf : PyClass → String
  | .jsonDumper => "json"
  | .plistDumper => "plist"
  | .yamlDumper => "yaml"
  | _ => ""

/-- One name in the module's `dir()` listing: either a class object (which
has `__bases__`), or any other object (module, the `get` dict, dunder
strings, ...) for which the `__bases__` access raises `AttributeError`
and the loop's `except AttributeError: pass` skips it. -/
inductive ModuleEntry where
  | cls (c : PyClass)
  | nonClass

/-- `dir()` at the point the registry loop starts: the module's global
names in Python's sorted `dir()` order, with the kind of object each is
bound to. -/
def moduleDir : List (String × ModuleEntry) :=
  [("DumperProto", .cls .dumperProto),
   ("JSONDumper", .cls .jsonDumper),
   ("OutputPanel", .cls .outputPanel),
   ("PlistDumper", .cls .plistDumper),
   ("YAMLDumper", .cls .yamlDumper),
   ("__builtins__", .nonClass),
   ("__doc__", .nonClass),
   ("__file__", .nonClass),
   ("__name__", .nonClass),
   ("__package__", .nonClass),
   ("datetime", .nonClass),
   ("get", .nonClass),
   ("json", .nonClass),
   ("plistlib", .nonClass),
   ("yaml", .nonClass)]

/-- `get[key] = t` with dict overwrite semantics. -/
def dictInsert (m : List (String × PyClass)) (k : String) (t : PyClass) :
    List (String × PyClass) :=
  if m.any (fun p => p.1 == k) then
    m.map (fun p => if p.1 == k then (k, t) else p)
  else m ++ [(k, t)]

/-- The module-level loop that populates the `get` registry. -/
def registryGet : List (String × PyClass) :=
  moduleDir.foldl
    (fun m p =>
      match p.2 with
      | .cls t =>
        if derivesDumperProto t && !isProto t then dictInsert m (extOf t) t else m
      | .nonClass => m)
    []

/-- `get[ext]`: `some` dumper class, or `none` (a Python `KeyError`) for an
unregistered extension. -/
def registryLookup (ext : String) : Option PyClass :=
  (registryGet.find? (fun p => p.1 == ext)).map (fun p => p.2)

/-- Whether an output line is an error line, i.e. starts with the
`"Error writing "` prefix `dump` uses. -/
def isErrLine (l : String) : Bool :=
  l.data.take 14 == ("Error writing " : String).data

theorem errorLine_isErrLine (n m : String) : isErrLine (errorLine n m) = true := by
  simp [errorLine, isErrLine, String.data_append]

theorem progressLine_not_errLine (n p : String) : isErrLine (progressLine n p) = false := by
  simp [progressLine, isErrLine, String.data_append]

/-- C3: the base `DumperProto.validate_data` consists of `pass` alone and
therefore returns `None` for every input, not the input unchanged; the
unmodified value is *not* what `dump` passes to `write`.  (The claim --
and the method's own docstring, "Must return the validated data object"
-- describe the intended no-op behaviour; the code is the slip.) -/
theorem base_validate_data_returns_none :
    (∀ data : Value, DumperProto.validate_data data = Value.vnone) ∧
    DumperProto.validate_data (Value.vint 42) ≠ Value.vint 42 := by
  refine ⟨fun _ => rfl, ?_⟩
  intro h
  exact Value.noConfusion h

/-- C4: the Property List rule list maps the predicate `x is None` to the
*non-callable constant* `False`, so sanitizing any value containing `None`
raises `TypeError` (`False(obj)` is not a call) instead of replacing the
`None` by the boolean `false` that the claim (and the `_validate_data`
docstring, which requires two *functions*) describes. -/
theorem plist_none_rule_raises_typeerror :
    PlistDumper.validate_data 20 (Value.vlist [Value.vnone]) = .error .typeError ∧
    PlistDumper.validate_data 20 Value.vnone = .error .typeError ∧
    PlistDumper.validate_data 20 (Value.vdict [("k", Value.vnone)]) = .error .typeError := by
  exact ⟨rfl, rfl, rfl⟩

/-- C7: the registry built by the module-level loop contains exactly the
three concrete dumper classes keyed by their declared extensions
(`DumperProto` itself and the non-dumper class are excluded, non-class
globals are skipped via `AttributeError`); lookup of an unregistered
extension yields `none` (a `KeyError`), distinct from every successful
lookup. -/
theorem registry_contents_and_lookup :
    registryGet = [("json", PyClass.jsonDumper), ("plist", PyClass.plistDumper),
      ("yaml", PyClass.yamlDumper)] ∧
    registryLookup "yaml" = some PyClass.yamlDumper ∧
    registryLookup "json" = some PyClass.jsonDumper ∧
    registryLookup "plist" = some PyClass.plistDumper ∧
    ∀ e : String, e ≠ "json" → e ≠ "plist" → e ≠ "yaml" → registryLookup e = none := by
  refine ⟨rfl, rfl, rfl, rfl, ?_⟩
  intro e h1 h2 h3
  have hg : registryGet = [("json", PyClass.jsonDumper), ("plist", PyClass.plistDumper),
      ("yaml", PyClass.yamlDumper)] := rfl
  simp only [registryLookup, hg, List.find?]
  have b1 : (("json" : String) == e) = false := by
    simp [beq_eq_false_iff_ne]
    exact fun h => h1 h.symm
  have b2 : (("plist" : String) == e) = false := by
    simp [beq_eq_false_iff_ne]
    exact fun h => h2 h.symm
  have b3 : (("yaml" : String) == e) = false := by
    simp [beq_eq_false_iff_ne]
    exact fun h => h3 h.symm
  simp [extOf, b1, b2, b3]

theorem registry_contents_and_lookup_witness :
    registryLookup "txt" = none :=
  registry_contents_and_lookup.2.2.2.2 "txt"
    (by decide) (by decide) (by decide)

/-- C9: on every conversion attempt, whatever `validate_data` and `write`
do, `dump` first appends the `"Writing <name>... (<path>)"` progress line
to the output sink and makes it visible (`show()`), before sanitization
and writing are attempted: the final output extends the original by the
progress line, and the panel is shown, in all three outcome branches. -/
theorem dump_writes_progress_line_first
    (validate : Value → Except PyErr Value) (write : Value → Except PyErr Unit)
    (st : DumperState) (data : Value) :
    (dump validate write st data).st.shown = true ∧
    ∃ rest, (dump validate write st data).st.output =
      st.output ++ progressLine st.name st.new_file_path :: rest := by
  cases hv : validate data with
  | error e =>
    refine ⟨?_, [], ?_⟩ <;> simp [dump, hv]
  | ok d =>
    cases hw : write d with
    | error e =>
      refine ⟨?_, [errorLine st.name (errMsg e)], ?_⟩ <;> simp [dump, hv, hw]
    | ok u =>
      refine ⟨?_, [], ?_⟩ <;> simp [dump, hv, hw]

/-- C6: whenever `validate_data` succeeds and the `write` step raises,
`dump` returns the falsy `None` (not `True`), no exception escapes, the
output gains exactly the progress line followed by one
`"Error writing <name>: <message>"` line — so exactly one error line is
added — and the panel was shown. -/
theorem dump_write_error_reports_failure
    (validate : Value → Except PyErr Value) (write : Value → Except PyErr Unit)
    (st : DumperState) (data d : Value) (e : PyErr)
    (hv : validate data = .ok d) (hw : write d = .error e) :
    (dump validate write st data).result = DumpResult.ret false ∧
    (dump validate write st data).st.output =
      st.output ++ [progressLine st.name st.new_file_path, errorLine st.name (errMsg e)] ∧
    (((dump validate write st data).st.output).drop st.output.length).countP isErrLine = 1 ∧
    (dump validate write st data).st.shown = true := by
  have hd : dump validate write st data =
      ⟨DumpResult.ret false,
        { st with
            output := st.output ++ [progressLine st.name st.new_file_path,
              errorLine st.name (errMsg e)],
            shown := true }⟩ := by
    simp [dump, hv, hw]
  refine ⟨by rw [hd], by rw [hd], ?_, by rw [hd]⟩
  rw [hd]
  have hdrop :
      ((st.output ++ [progressLine st.name st.new_file_path,
        errorLine st.name (errMsg e)]).drop st.output.length) =
      [progressLine st.name st.new_file_path, errorLine st.name (errMsg e)] := by
    simp
  simp only [hdrop, List.countP_cons, List.countP_nil,
    progressLine_not_errLine, errorLine_isErrLine]
  simp

theorem dump_write_error_reports_failure_witness :
    (dump (JSONDumper.validate_data 20)
        (fun _ => .error (.err "No such file or directory"))
        ⟨"JSON", "/nonexistent/out.json", [], false⟩
        (Value.vlist [Value.vint 1])).result = DumpResult.ret false ∧
    (dump (JSONDumper.validate_data 20)
        (fun _ => .error (.err "No such file or directory"))
        ⟨"JSON", "/nonexistent/out.json", [], false⟩
        (Value.vlist [Value.vint 1])).st.output =
      [] ++ [progressLine "JSON" "/nonexistent/out.json",
        errorLine "JSON" (errMsg (.err "No such file or directory"))] ∧
    ((dump (JSONDumper.validate_data 20)
        (fun _ => .error (.err "No such file or directory"))
        ⟨"JSON", "/nonexistent/out.json", [], false⟩
        (Value.vlist [Value.vint 1])).st.output.drop 0).countP isErrLine = 1 ∧
    (dump (JSONDumper.validate_data 20)
        (fun _ => .error (.err "No such file or directory"))
        ⟨"JSON", "/nonexistent/out.json", [], false⟩
        (Value.vlist [Value.vint 1])).st.shown = true :=
  dump_write_error_reports_failure (JSONDumper.validate_data 20)
    (fun _ => .error (.err "No such file or directory"))
    ⟨"JSON", "/nonexistent/out.json", [], false⟩
    (Value.vlist [Value.vint 1]) (Value.vlist [Value.vint 1])
    (.err "No such file or directory") rfl rfl

/-- C1 fails on the code: `data = self.validate_data(data)` stands *before*
the `try:` block in `dump`, so an exception raised during sanitization is
not caught, no error line is written, and no failure signal is returned —
the exception propagates to `dump`'s caller.  Concretely: the Property
List dumper's own `validate_data` raises `TypeError` on `None` input, and
`dump` ends with that exception uncaught, the output sink holding only
the progress line (no error line). -/
theorem validate_error_escapes_dump_concrete :
    dump (PlistDumper.validate_data 20) (fun _ => .ok ())
        ⟨"Property List", "out.plist", [], false⟩ Value.vnone =
      ⟨DumpResult.raised PyErr.typeError,
        ⟨"Property List", "out.plist",
          [progressLine "Property List" "out.plist"], true⟩⟩ ∧
    (dump (PlistDumper.validate_data 20) (fun _ => .ok ())
        ⟨"Property List", "out.plist", [], false⟩ Value.vnone).st.output.countP
      isErrLine = 0 := by
  constructor
  · rfl
  · have h : (dump (PlistDumper.validate_data 20) (fun _ => .ok ())
        ⟨"Property List", "out.plist", [], false⟩ Value.vnone).st.output =
        [progressLine "Property List" "out.plist"] := rfl
    rw [h]
    simp [progressLine_not_errLine]

/-- C1 amended: only exceptions raised by `write` are caught by `dump`'s
single handler; an exception raised by `validate_data` escapes `dump`
uncaught, with the output sink holding the progress line but no error
line and no boolean result produced. -/
theorem dump_validate_error_uncaught
    (validate : Value → Except PyErr Value) (write : Value → Except PyErr Unit)
    (st : DumperState) (data : Value) (e : PyErr)
    (hv : validate data = .error e) :
    dump validate write st data =
      ⟨DumpResult.raised e,
        { st with output := st.output ++ [progressLine st.name st.new_file_path],
                  shown := true }⟩ := by
  simp [dump, hv]

theorem dump_validate_error_uncaught_witness :
    dump (PlistDumper.validate_data 20) (fun _ => .ok ())
        ⟨"Property List", "x.plist", ["old"], false⟩ (Value.vlist [Value.vnone]) =
      ⟨DumpResult.raised PyErr.typeError,
        ⟨"Property List", "x.plist",
          ["old", progressLine "Property List" "x.plist"], true⟩⟩ :=
  dump_validate_error_uncaught (PlistDumper.validate_data 20) (fun _ => .ok ())
    ⟨"Property List", "x.plist", ["old"], false⟩ (Value.vlist [Value.vnone])
    PyErr.typeError rfl

/-- C2 fails on the code: with the JSON rule list, no rule fires on the
list `[1, 1]`, yet the equality-based `checked` list makes the second
(equal) occurrence of `1` come back as `None`, so sanitization is not the
identity: the result `[1, None]` is not `==` to the input. -/
theorem validate_not_identity_on_duplicates :
    _validate_data 20 (Value.vlist [Value.vint 1, Value.vint 1]) jsonFuncs =
      .ok (Value.vlist [Value.vint 1, Value.vnone]) ∧
    pyEq (Value.vlist [Value.vint 1, Value.vnone])
      (Value.vlist [Value.vint 1, Value.vint 1]) = false ∧
    (∀ r ∈ jsonFuncs, r.is_invalid (Value.vlist [Value.vint 1, Value.vint 1]) = false) ∧
    (∀ r ∈ jsonFuncs, r.is_invalid (Value.vint 1) = false) := by
  refine ⟨rfl, rfl, ?_, ?_⟩ <;> (intro r hr; fin_cases hr <;> rfl)

/-- C5 fails on the code: sanitizing `[date, date]` (two `==` occurrences
of the same date) with the JSON rule list turns only the first occurrence
into a string; the second is short-circuited by the visited list and
becomes `None`, which is not a string. -/
theorem json_duplicate_date_not_stringified :
    _validate_data 20 (Value.vlist [Value.vdate 0, Value.vdate 0]) jsonFuncs =
      .ok (Value.vlist [Value.vstr "date-0", Value.vnone]) ∧
    isStrB Value.vnone = false ∧
    _validate_data 20 (Value.vlist [Value.vdate 0, Value.vdate 0]) plistFuncs =
      .ok (Value.vlist [Value.vstr "date-0", Value.vnone]) := by
  exact ⟨rfl, rfl, rfl⟩

/-- C10 fails on the code as universally stated: when sanitization mutates
the earlier-visited occurrence in place (here `[1, 1]` becomes `[1, None]`
through the visited-list defect itself), the later equal occurrence no
longer matches the mutated `checked` entry and is re-processed — it
becomes `[None, None]`, not `None`. -/
theorem visited_duplicate_not_always_none :
    _validate_data 20
        (Value.vlist [Value.vlist [Value.vint 1, Value.vint 1],
          Value.vlist [Value.vint 1, Value.vint 1]]) [] =
      .ok (Value.vlist [Value.vlist [Value.vint 1, Value.vnone],
        Value.vlist [Value.vnone, Value.vnone]]) ∧
    Value.vlist [Value.vnone, Value.vnone] ≠ Value.vnone := by
  exact ⟨rfl, fun h => Value.noConfusion h⟩

theorem checkList_nil (fuel : Nat) (funcs : List Rule) (c : List Value) :
    checkList fuel funcs c [] = .ok ([], c) := by
  cases fuel <;> rfl

theorem checkEntries_nil (fuel : Nat) (funcs : List Rule) (c : List Value) :
    checkEntries fuel funcs c [] = .ok ([], c) := by
  cases fuel <;> rfl

theorem checkSet_nil (fuel : Nat) (funcs : List Rule) (c cur : List Value) :
    checkSet fuel funcs c cur [] = .ok (cur, c) := by
  cases fuel <;> rfl

/-- C10 amended: if the earlier occurrence's processing returns `res` and
leaves a `checked` list that the original element still matches (in
particular whenever sanitization leaves the element unchanged), and no
rule fires on the two-element list itself, then the later-visited equal
occurrence is indeed replaced by `None`. -/
theorem visited_duplicate_becomes_none_if_unchanged
    (fuel : Nat) (funcs : List Rule) (x res : Value) (cs : List Value)
    (hnf : applyRules funcs (Value.vlist [x, x]) = .ok (false, Value.vlist [x, x]))
    (h1 : checkRec (fuel + 2) funcs [Value.vlist [x, x]] x = .ok (res, cs))
    (h2 : cs.any (fun t => pyEq x t) = true) :
    _validate_data (fuel + 4) (Value.vlist [x, x]) funcs =
      .ok (Value.vlist [res, Value.vnone]) := by
  have e3 : checkRec (fuel + 1) funcs cs x = .ok (Value.vnone, cs) := by
    unfold checkRec
    simp [h2]
  have e2 : checkList (fuel + 2) funcs cs [x] = .ok ([Value.vnone], cs) := by
    show checkList (fuel + 1 + 1) funcs cs [x] = .ok ([Value.vnone], cs)
    unfold checkList
    rw [e3]
    simp [checkList_nil]
  have e1 : checkList (fuel + 3) funcs [Value.vlist [x, x]] [x, x] =
      .ok ([res, Value.vnone], cs) := by
    show checkList (fuel + 2 + 1) funcs [Value.vlist [x, x]] [x, x] =
      .ok ([res, Value.vnone], cs)
    unfold checkList
    rw [h1]
    simp [e2]
  show _validate_data (fuel + 3 + 1) (Value.vlist [x, x]) funcs =
    .ok (Value.vlist [res, Value.vnone])
  unfold _validate_data checkRec
  simp [hnf, e1]

theorem visited_duplicate_becomes_none_if_unchanged_witness :
    _validate_data 4 (Value.vlist [Value.vint 1, Value.vint 1]) [] =
      .ok (Value.vlist [Value.vint 1, Value.vnone]) :=
  visited_duplicate_becomes_none_if_unchanged 0 [] (Value.vint 1) (Value.vint 1)
    [Value.vlist [Value.vint 1, Value.vint 1], Value.vint 1] rfl rfl rfl

/-- C8 fails on the code: two sets with the same contents, iterated in the
two possible orders, sanitize (even with an empty rule list) to sets with
different contents, because the shared visited list makes an element's
sanitized form depend on which elements were processed before it. -/
theorem set_sanitize_order_dependent :
    pyEq (Value.vset [Value.vtuple [Value.vint 1],
        Value.vtuple [Value.vint 2, Value.vtuple [Value.vint 1]]])
      (Value.vset [Value.vtuple [Value.vint 2, Value.vtuple [Value.vint 1]],
        Value.vtuple [Value.vint 1]]) = true ∧
    _validate_data 20 (Value.vset [Value.vtuple [Value.vint 1],
        Value.vtuple [Value.vint 2, Value.vtuple [Value.vint 1]]]) [] =
      .ok (Value.vset [Value.vtuple [Value.vint 1],
        Value.vtuple [Value.vint 2, Value.vnone]]) ∧
    _validate_data 20 (Value.vset [Value.vtuple [Value.vint 2, Value.vtuple [Value.vint 1]],
        Value.vtuple [Value.vint 1]]) [] =
      .ok (Value.vset [Value.vtuple [Value.vint 2, Value.vtuple [Value.vint 1]],
        Value.vnone]) ∧
    pyEq (Value.vset [Value.vtuple [Value.vint 1],
        Value.vtuple [Value.vint 2, Value.vnone]])
      (Value.vset [Value.vtuple [Value.vint 2, Value.vtuple [Value.vint 1]],
        Value.vnone]) = false := by
  exact ⟨rfl, rfl, rfl, rfl⟩

/-- Is the value one of the container kinds the sanitizer recurses into
(or rebuilds); everything else is treated as a scalar. -/
def isCont : Value → Bool
  | .vdict _ => true
  | .vidict _ => true
  | .vlist _ => true
  | .vtuple _ => true
  | .vset _ => true
  | _ => false

mutual

/-- The sub-value occurrences the sanitizer visits strictly below a value
(dict keys are not visited; set elements are), in visit order. -/
def nodesKids : Value → List Value
  | .vdict es => nodesEntries es
  | .vidict es => nodesEntries es
  | .vlist xs => nodesList xs
  | .vtuple xs => nodesList xs
  | .vset xs => nodesList xs
  | _ => []
termination_by structural x => x

/-- All visited occurrences below a list of sibling values. -/
def nodesList : List Value → List Value
  | [] => []
  | x :: xs => (x :: nodesKids x) ++ nodesList xs
termination_by structural x => x

/-- All visited occurrences below a dict entry list. -/
def nodesEntries : List (String × Value) → List Value
  | [] => []
  | (_, v) :: rest => (v :: nodesKids v) ++ nodesEntries rest
termination_by structural x => x

end

/-- All occurrences the sanitizer visits in a value, in visit order
(the value itself first). -/
def nodes (v : Value) : List Value := v :: nodesKids v

mutual

/-- Structural sanitization map: what `check_recursive` computes on a
value when the visited list never fires, `f` being the per-scalar result
of the rule pass.  Containers are rebuilt (dict values, list/tuple
elements) or updated by the remove/add discipline (sets). -/
def sanMap (f : Value → Value) : Value → Value
  | .vdict es => .vdict (sanMapEntries f es)
  | .vidict es => .vidict (sanMapEntries f es)
  | .vlist xs => .vlist (sanMapList f xs)
  | .vtuple xs => .vtuple (sanMapList f xs)
  | .vset xs => .vset (sanSet f xs xs)
  | v => f v
termination_by structural x => x

/-- `sanMap` over sibling values. -/
def sanMapList (f : Value → Value) : List Value → List Value
  | [] => []
  | x :: xs => sanMap f x :: sanMapList f xs
termination_by structural x => x

/-- `sanMap` over dict entries (keys untouched). -/
def sanMapEntries (f : Value → Value) : List (String × Value) → List (String × Value)
  | [] => []
  | (k, v) :: rest => (k, sanMap f v) :: sanMapEntries f rest
termination_by structural x => x

/-- The set remove/add discipline over a snapshot (`todo`) of the
elements, on current contents `cur`. -/
def sanSet (f : Value → Value) : List Value → List Value → List Value
  | cur, [] => cur
  | cur, val :: rest =>
    sanSet f
      (if pyEq (sanMap f val) val then cur
       else pyAdd (pyRemove cur val) (sanMap f val)) rest
termination_by structural cur todo => todo

end

/-- The set-branch remove/add fold abstracted over an arbitrary pure
per-element sanitized form `g`: iterate over the snapshot `todo`; when
`g val` differs from `val` (as Python `==`), remove `val` from the
current contents and insert `g val`. -/
def setFold (g : Value → Value) : List Value → List Value → List Value
  | cur, [] => cur
  | cur, val :: rest =>
    setFold g
      (if pyEq (g val) val then cur else pyAdd (pyRemove cur val) (g val)) rest

theorem sanSet_eq_setFold (f : Value → Value) (todo cur : List Value) :
    sanSet f cur todo = setFold (sanMap f) cur todo := by
  induction todo generalizing cur with
  | nil => rfl
  | cons val rest ih => simp [sanSet, setFold, ih]

/-- What a visited object's `checked` entry holds after its subtree is
processed: mutable containers (dict / `_InternalDict` / list / set) show
their final mutated form; tuples are rebuilt rather than mutated and
scalars are rebound rather than mutated, so their entries keep the
original value. -/
def residue (f : Value → Value) (v : Value) : Value :=
  match v with
  | .vdict es => sanMap f (.vdict es)
  | .vidict es => sanMap f (.vidict es)
  | .vlist xs => sanMap f (.vlist xs)
  | .vset xs => sanMap f (.vset xs)
  | w => w

mutual

/-- Python hashability: sets may only contain scalars and tuples of
hashable values (lists, dicts and sets are unhashable). -/
def hashable : Value → Bool
  | .vdict _ => false
  | .vidict _ => false
  | .vlist _ => false
  | .vset _ => false
  | .vtuple xs => hashList xs
  | _ => true
termination_by structural x => x

/-- All values in the list are hashable. -/
def hashList : List Value → Bool
  | [] => true
  | x :: xs => hashable x && hashList xs
termination_by structural x => x

end

mutual

/-- The value is a faithful image of a Python value: every set holds only
hashable elements (CPython enforces this on `set.add`). -/
def WFsets : Value → Bool
  | .vdict es => WFsetsEntries es
  | .vidict es => WFsetsEntries es
  | .vlist xs => WFsetsList xs
  | .vtuple xs => WFsetsList xs
  | .vset xs => hashList xs && WFsetsList xs
  | _ => true
termination_by structural x => x

/-- `WFsets` over sibling values. -/
def WFsetsList : List Value → Bool
  | [] => true
  | x :: xs => WFsets x && WFsetsList xs
termination_by structural x => x

/-- `WFsets` over dict entries. -/
def WFsetsEntries : List (String × Value) → Bool
  | [] => true
  | (_, v) :: rest => WFsets v && WFsetsEntries rest
termination_by structural x => x

end

/-- A rule list is tame at a visited occurrence `s`, with per-node result
`f s`: no rule fires on a container (so the in-place branches run on the
original object), and on a scalar the rule pass computes `f s`, itself a
scalar. -/
def RuleOK (funcs : List Rule) (f : Value → Value) (s : Value) : Prop :=
  (isCont s = true → applyRules funcs s = .ok (false, s)) ∧
  (isCont s = false → ∃ b, applyRules funcs s = .ok (b, f s) ∧ isCont (f s) = false)

/-- Distinctness discipline for the visited list: a later-visited
occurrence `t` differs (as Python `==`) both from each earlier-visited
occurrence `s` and from the residue `s`'s `checked` entry holds once `s`
is processed. -/
def SanRel (f : Value → Value) (s t : Value) : Prop :=
  pyEq t s = false ∧ pyEq t (residue f s) = false

theorem pySize_pos (v : Value) : 1 ≤ pySize v := by
  cases v <;> simp [pySize]

theorem list_set_append {α : Type} (a : List α) (y : α) (b : List α) (x : α) :
    (a ++ y :: b).set a.length x = a ++ x :: b := by
  induction a with
  | nil => rfl
  | cons h t ih => simp [List.set, ih]

theorem any_pyEq_false {v : Value} {c : List Value}
    (h : ∀ u ∈ c, pyEq v u = false) :
    (c.any fun t => pyEq v t) = false := by
  rw [List.any_eq_false]
  intro u hu
  simp [h u hu]

theorem sanMap_scalar (f : Value → Value) (v : Value) (h : isCont v = false) :
    sanMap f v = f v := by
  cases v <;> first
    | rfl
    | simp [isCont] at h

theorem nodesKids_scalar (v : Value) (h : isCont v = false) :
    nodesKids v = [] := by
  cases v <;> first
    | rfl
    | simp [isCont] at h

theorem residue_scalar (f : Value → Value) (v : Value) (h : isCont v = false) :
    residue f v = v := by
  cases v <;> first
    | rfl
    | simp [isCont] at h

theorem checkRec_succ_scalar (fuel : Nat) (funcs : List Rule) (c : List Value)
    (v : Value) (f : Value → Value) (b : Bool)
    (hany : (c.any fun t => pyEq v t) = false)
    (happ : applyRules funcs v = .ok (b, f v))
    (hfc : isCont (f v) = false) :
    checkRec (fuel + 1) funcs c v = .ok (f v, c ++ [v]) := by
  unfold checkRec
  simp only [hany, Bool.false_eq_true, if_false, happ]
  cases hfv : f v <;> first
    | rfl
    | (rw [hfv] at hfc; simp [isCont] at hfc)

theorem checkRec_master :
    ∀ fuel : Nat,
      (∀ funcs f c v, pySize v ≤ fuel →
        (∀ s ∈ nodes v, RuleOK funcs f s) →
        (nodes v).Pairwise (SanRel f) →
        (∀ t ∈ nodes v, ∀ u ∈ c, pyEq t u = false) →
        checkRec fuel funcs c v = .ok (sanMap f v, c ++ (nodes v).map (residue f))) ∧
      (∀ funcs f c l, pySizeList l ≤ fuel →
        (∀ s ∈ nodesList l, RuleOK funcs f s) →
        (nodesList l).Pairwise (SanRel f) →
        (∀ t ∈ nodesList l, ∀ u ∈ c, pyEq t u = false) →
        checkList fuel funcs c l = .ok (sanMapList f l, c ++ (nodesList l).map (residue f))) ∧
      (∀ funcs f c es, pySizeEntries es ≤ fuel →
        (∀ s ∈ nodesEntries es, RuleOK funcs f s) →
        (nodesEntries es).Pairwise (SanRel f) →
        (∀ t ∈ nodesEntries es, ∀ u ∈ c, pyEq t u = false) →
        checkEntries fuel funcs c es =
          .ok (sanMapEntries f es, c ++ (nodesEntries es).map (residue f))) ∧
      (∀ funcs f c cur todo, pySizeList todo ≤ fuel →
        (∀ s ∈ nodesList todo, RuleOK funcs f s) →
        (nodesList todo).Pairwise (SanRel f) →
        (∀ t ∈ nodesList todo, ∀ u ∈ c, pyEq t u = false) →
        checkSet fuel funcs c cur todo =
          .ok (sanSet f cur todo, c ++ (nodesList todo).map (residue f))) := by
  intro fuel
  induction fuel with
  | zero =>
    refine ⟨?_, ?_, ?_, ?_⟩
    · intro funcs f c v hsz _ _ _
      have := pySize_pos v
      omega
    · intro funcs f c l hsz _ _ _
      cases l with
      | nil => simp [checkList_nil, sanMapList, nodesList]
      | cons x xs =>
        have := pySize_pos x
        simp [pySizeList] at hsz
    · intro funcs f c es hsz _ _ _
      cases es with
      | nil => simp [checkEntries_nil, sanMapEntries, nodesEntries]
      | cons kv rest =>
        obtain ⟨k, v⟩ := kv
        have := pySize_pos v
        simp [pySizeEntries] at hsz
    · intro funcs f c cur todo hsz _ _ _
      cases todo with
      | nil => simp [checkSet_nil, sanSet, nodesList]
      | cons val rest =>
        have := pySize_pos val
        simp [pySizeList] at hsz
  | succ fuel ih =>
    obtain ⟨ihA, ihB, ihC, ihD⟩ := ih
    have hA : ∀ funcs f c v, pySize v ≤ fuel + 1 →
        (∀ s ∈ nodes v, RuleOK funcs f s) →
        (nodes v).Pairwise (SanRel f) →
        (∀ t ∈ nodes v, ∀ u ∈ c, pyEq t u = false) →
        checkRec (fuel + 1) funcs c v =
          .ok (sanMap f v, c ++ (nodes v).map (residue f)) := by
      intro funcs f c v hsz hok hpw hf
      have hvmem : v ∈ nodes v := by simp [nodes]
      have hany : (c.any fun t => pyEq v t) = false :=
        any_pyEq_false (hf v hvmem)
      by_cases hc : isCont v = true
      case neg =>
        have hcF : isCont v = false := by
          revert hc; cases isCont v <;> simp
        obtain ⟨b, happ, hfc⟩ := (hok v hvmem).2 hcF
        rw [checkRec_succ_scalar fuel funcs c v f b hany happ hfc]
        rw [sanMap_scalar f v hcF]
        simp [nodes, nodesKids_scalar v hcF, residue_scalar f v hcF]
      case pos =>
        have happ : applyRules funcs v = .ok (false, v) := (hok v hvmem).1 hc
        cases v with
        | vlist xs =>
          rw [show nodes (Value.vlist xs) = Value.vlist xs :: nodesList xs from rfl]
            at hok hpw hf
          obtain ⟨hrel, hpwk⟩ := List.pairwise_cons.mp hpw
          have hokk : ∀ s ∈ nodesList xs, RuleOK funcs f s :=
            fun s hs => hok s (List.mem_cons_of_mem _ hs)
          have hfk : ∀ t ∈ nodesList xs, ∀ u ∈ c ++ [Value.vlist xs],
              pyEq t u = false := by
            intro t ht u hu
            rcases List.mem_append.mp hu with h | h
            · exact hf t (List.mem_cons_of_mem _ ht) u h
            · rw [List.mem_singleton.mp h]
              exact (hrel t ht).1
          have hszk : pySizeList xs ≤ fuel := by
            simp [pySize] at hsz; omega
          have hB := ihB funcs f (c ++ [Value.vlist xs]) xs hszk hokk hpwk hfk
          unfold checkRec
          simp only [hany, Bool.false_eq_true, if_false, happ, hB]
          simp only [List.append_assoc, List.singleton_append, list_set_append]
          rfl
        | vtuple xs =>
          rw [show nodes (Value.vtuple xs) = Value.vtuple xs :: nodesList xs from rfl]
            at hok hpw hf
          obtain ⟨hrel, hpwk⟩ := List.pairwise_cons.mp hpw
          have hokk : ∀ s ∈ nodesList xs, RuleOK funcs f s :=
            fun s hs => hok s (List.mem_cons_of_mem _ hs)
          have hfk : ∀ t ∈ nodesList xs, ∀ u ∈ c ++ [Value.vtuple xs],
              pyEq t u = false := by
            intro t ht u hu
            rcases List.mem_append.mp hu with h | h
            · exact hf t (List.mem_cons_of_mem _ ht) u h
            · rw [List.mem_singleton.mp h]
              exact (hrel t ht).1
          have hszk : pySizeList xs ≤ fuel := by
            simp [pySize] at hsz; omega
          have hB := ihB funcs f (c ++ [Value.vtuple xs]) xs hszk hokk hpwk hfk
          unfold checkRec
          simp only [hany, Bool.false_eq_true, if_false, happ, hB]
          simp only [List.append_assoc, List.singleton_append]
          rfl
        | vset xs =>
          rw [show nodes (Value.vset xs) = Value.vset xs :: nodesList xs from rfl]
            at hok hpw hf
          obtain ⟨hrel, hpwk⟩ := List.pairwise_cons.mp hpw
          have hokk : ∀ s ∈ nodesList xs, RuleOK funcs f s :=
            fun s hs => hok s (List.mem_cons_of_mem _ hs)
          have hfk : ∀ t ∈ nodesList xs, ∀ u ∈ c ++ [Value.vset xs],
              pyEq t u = false := by
            intro t ht u hu
            rcases List.mem_append.mp hu with h | h
            · exact hf t (List.mem_cons_of_mem _ ht) u h
            · rw [List.mem_singleton.mp h]
              exact (hrel t ht).1
          have hszk : pySizeList xs ≤ fuel := by
            simp [pySize] at hsz; omega
          have hD := ihD funcs f (c ++ [Value.vset xs]) xs xs hszk hokk hpwk hfk
          unfold checkRec
          simp only [hany, Bool.false_eq_true, if_false, happ, hD]
          simp only [List.append_assoc, List.singleton_append, list_set_append]
          rfl
        | vdict es =>
          rw [show nodes (Value.vdict es) = Value.vdict es :: nodesEntries es from rfl]
            at hok hpw hf
          obtain ⟨hrel, hpwk⟩ := List.pairwise_cons.mp hpw
          have hokk : ∀ s ∈ nodesEntries es, RuleOK funcs f s :=
            fun s hs => hok s (List.mem_cons_of_mem _ hs)
          have hfk : ∀ t ∈ nodesEntries es, ∀ u ∈ c ++ [Value.vdict es],
              pyEq t u = false := by
            intro t ht u hu
            rcases List.mem_append.mp hu with h | h
            · exact hf t (List.mem_cons_of_mem _ ht) u h
            · rw [List.mem_singleton.mp h]
              exact (hrel t ht).1
          have hszk : pySizeEntries es ≤ fuel := by
            simp [pySize] at hsz; omega
          have hC := ihC funcs f (c ++ [Value.vdict es]) es hszk hokk hpwk hfk
          unfold checkRec
          simp only [hany, Bool.false_eq_true, if_false, happ, hC]
          simp only [List.append_assoc, List.singleton_append, list_set_append]
          rfl
        | vidict es =>
          rw [show nodes (Value.vidict es) = Value.vidict es :: nodesEntries es from rfl]
            at hok hpw hf
          obtain ⟨hrel, hpwk⟩ := List.pairwise_cons.mp hpw
          have hokk : ∀ s ∈ nodesEntries es, RuleOK funcs f s :=
            fun s hs => hok s (List.mem_cons_of_mem _ hs)
          have hfk : ∀ t ∈ nodesEntries es, ∀ u ∈ c ++ [Value.vidict es],
              pyEq t u = false := by
            intro t ht u hu
            rcases List.mem_append.mp hu with h | h
            · exact hf t (List.mem_cons_of_mem _ ht) u h
            · rw [List.mem_singleton.mp h]
              exact (hrel t ht).1
          have hszk : pySizeEntries es ≤ fuel := by
            simp [pySize] at hsz; omega
          have hC := ihC funcs f (c ++ [Value.vidict es]) es hszk hokk hpwk hfk
          unfold checkRec
          simp only [hany, Bool.false_eq_true, if_false, happ, hC]
          simp only [List.append_assoc, List.singleton_append, list_set_append]
          rfl
        | vstr s => simp [isCont] at hc
        | vint n => simp [isCont] at hc
        | vbool b => simp [isCont] at hc
        | vnone => simp [isCont] at hc
        | vdate n => simp [isCont] at hc
        | vdatetime n => simp [isCont] at hc
        | vdata s => simp [isCont] at hc
    have hB : ∀ funcs f c l, pySizeList l ≤ fuel + 1 →
        (∀ s ∈ nodesList l, RuleOK funcs f s) →
        (nodesList l).Pairwise (SanRel f) →
        (∀ t ∈ nodesList l, ∀ u ∈ c, pyEq t u = false) →
        checkList (fuel + 1) funcs c l =
          .ok (sanMapList f l, c ++ (nodesList l).map (residue f)) := by
      intro funcs f c l hsz hok hpw hf
      cases l with
      | nil => simp [checkList_nil, sanMapList, nodesList]
      | cons x xs =>
        rw [show nodesList (x :: xs) = nodes x ++ nodesList xs from rfl]
          at hok hpw hf
        obtain ⟨hpw1, hpw2, hcross⟩ := List.pairwise_append.mp hpw
        have hsz1 : pySize x ≤ fuel := by
          simp [pySizeList] at hsz; omega
        have hsz2 : pySizeList xs ≤ fuel := by
          have := pySize_pos x
          simp [pySizeList] at hsz; omega
        have hA1 := ihA funcs f c x hsz1
          (fun s hs => hok s (List.mem_append_left _ hs)) hpw1
          (fun t ht u hu => hf t (List.mem_append_left _ ht) u hu)
        have hf2 : ∀ t ∈ nodesList xs,
            ∀ u ∈ c ++ (nodes x).map (residue f), pyEq t u = false := by
          intro t ht u hu
          rcases List.mem_append.mp hu with h | h
          · exact hf t (List.mem_append_right _ ht) u h
          · obtain ⟨s, hs, rfl⟩ := List.mem_map.mp h
            exact (hcross s hs t ht).2
        have hB2 := ihB funcs f (c ++ (nodes x).map (residue f)) xs hsz2
          (fun s hs => hok s (List.mem_append_right _ hs)) hpw2 hf2
        unfold checkList
        simp only [hA1, hB2]
        simp [sanMapList, nodesList, nodes, List.append_assoc]
    have hC : ∀ funcs f c es, pySizeEntries es ≤ fuel + 1 →
        (∀ s ∈ nodesEntries es, RuleOK funcs f s) →
        (nodesEntries es).Pairwise (SanRel f) →
        (∀ t ∈ nodesEntries es, ∀ u ∈ c, pyEq t u = false) →
        checkEntries (fuel + 1) funcs c es =
          .ok (sanMapEntries f es, c ++ (nodesEntries es).map (residue f)) := by
      intro funcs f c es hsz hok hpw hf
      cases es with
      | nil => simp [checkEntries_nil, sanMapEntries, nodesEntries]
      | cons kv rest =>
        obtain ⟨k, v⟩ := kv
        rw [show nodesEntries ((k, v) :: rest) = nodes v ++ nodesEntries rest from rfl]
          at hok hpw hf
        obtain ⟨hpw1, hpw2, hcross⟩ := List.pairwise_append.mp hpw
        have hsz1 : pySize v ≤ fuel := by
          simp [pySizeEntries] at hsz; omega
        have hsz2 : pySizeEntries rest ≤ fuel := by
          have := pySize_pos v
          simp [pySizeEntries] at hsz; omega
        have hA1 := ihA funcs f c v hsz1
          (fun s hs => hok s (List.mem_append_left _ hs)) hpw1
          (fun t ht u hu => hf t (List.mem_append_left _ ht) u hu)
        have hf2 : ∀ t ∈ nodesEntries rest,
            ∀ u ∈ c ++ (nodes v).map (residue f), pyEq t u = false := by
          intro t ht u hu
          rcases List.mem_append.mp hu with h | h
          · exact hf t (List.mem_append_right _ ht) u h
          · obtain ⟨s, hs, rfl⟩ := List.mem_map.mp h
            exact (hcross s hs t ht).2
        have hB2 := ihC funcs f (c ++ (nodes v).map (residue f)) rest hsz2
          (fun s hs => hok s (List.mem_append_right _ hs)) hpw2 hf2
        unfold checkEntries
        simp only [hA1, hB2]
        simp [sanMapEntries, nodesEntries, nodes, List.append_assoc]
    have hD : ∀ funcs f c cur todo, pySizeList todo ≤ fuel + 1 →
        (∀ s ∈ nodesList todo, RuleOK funcs f s) →
        (nodesList todo).Pairwise (SanRel f) →
        (∀ t ∈ nodesList todo, ∀ u ∈ c, pyEq t u = false) →
        checkSet (fuel + 1) funcs c cur todo =
          .ok (sanSet f cur todo, c ++ (nodesList todo).map (residue f)) := by
      intro funcs f c cur todo hsz hok hpw hf
      cases todo with
      | nil => simp [checkSet_nil, sanSet, nodesList]
      | cons val rest =>
        rw [show nodesList (val :: rest) = nodes val ++ nodesList rest from rfl]
          at hok hpw hf
        obtain ⟨hpw1, hpw2, hcross⟩ := List.pairwise_append.mp hpw
        have hsz1 : pySize val ≤ fuel := by
          simp [pySizeList] at hsz; omega
        have hsz2 : pySizeList rest ≤ fuel := by
          have := pySize_pos val
          simp [pySizeList] at hsz; omega
        have hA1 := ihA funcs f c val hsz1
          (fun s hs => hok s (List.mem_append_left _ hs)) hpw1
          (fun t ht u hu => hf t (List.mem_append_left _ ht) u hu)
        have hf2 : ∀ t ∈ nodesList rest,
            ∀ u ∈ c ++ (nodes val).map (residue f), pyEq t u = false := by
          intro t ht u hu
          rcases List.mem_append.mp hu with h | h
          · exact hf t (List.mem_append_right _ ht) u h
          · obtain ⟨s, hs, rfl⟩ := List.mem_map.mp h
            exact (hcross s hs t ht).2
        have hB2 := ihD funcs f (c ++ (nodes val).map (residue f))
          (if pyEq (sanMap f val) val then cur
           else pyAdd (pyRemove cur val) (sanMap f val)) rest hsz2
          (fun s hs => hok s (List.mem_append_right _ hs)) hpw2 hf2
        unfold checkSet
        simp only [hA1, hB2]
        simp [sanSet, nodesList, nodes, List.append_assoc]
    exact ⟨hA, hB, hC, hD⟩

theorem applyRules_nofire {funcs : List Rule} {s : Value}
    (h : ∀ r ∈ funcs, r.is_invalid s = false) :
    applyRules funcs s = .ok (false, s) := by
  induction funcs with
  | nil => rfl
  | cons r rs ih =>
    have hr : r.is_invalid s = false := h r (List.mem_cons_self r rs)
    have ht : applyRules rs s = .ok (false, s) :=
      ih (fun q hq => h q (List.mem_cons_of_mem _ hq))
    simp [applyRules, hr, ht]

theorem pyEqN_refl :
    ∀ fuel, (∀ x, hashable x = true → pySize x ≤ fuel → pyEqN fuel x x = true) ∧
      (∀ xs, hashList xs = true → pySizeList xs ≤ fuel →
        pyEqListN fuel xs xs = true) := by
  intro fuel
  induction fuel with
  | zero =>
    constructor
    · intro x _ hsz; have := pySize_pos x; omega
    · intro xs hh hsz
      cases xs with
      | nil => rfl
      | cons y ys =>
        have := pySize_pos y
        simp [pySizeList] at hsz
  | succ fuel ih =>
    obtain ⟨ihV, ihL⟩ := ih
    constructor
    · intro x hh hsz
      cases x with
      | vtuple xs =>
        have hs : pySizeList xs ≤ fuel := by simp [pySize] at hsz; omega
        simpa [pyEqN] using ihL xs (by simpa [hashable] using hh) hs
      | vdict es => simp [hashable] at hh
      | vidict es => simp [hashable] at hh
      | vlist xs => simp [hashable] at hh
      | vset xs => simp [hashable] at hh
      | vstr s => simp [pyEqN]
      | vint n => simp [pyEqN]
      | vbool b => simp [pyEqN]
      | vnone => rfl
      | vdate n => simp [pyEqN]
      | vdatetime n => simp [pyEqN]
      | vdata s => simp [pyEqN]
    · intro xs hh hsz
      cases xs with
      | nil => rfl
      | cons y ys =>
        simp [hashList] at hh
        have h1 : pySize y ≤ fuel := by simp [pySizeList] at hsz; omega
        have h2 : pySizeList ys ≤ fuel := by
          have := pySize_pos y
          simp [pySizeList] at hsz; omega
        simp [pyEqListN, ihV y hh.1 h1, ihL ys hh.2 h2]

theorem pyEq_refl_hashable {x : Value} (h : hashable x = true) :
    pyEq x x = true :=
  (pyEqN_refl (pySize x + pySize x)).1 x h (by omega)

theorem sanMap_id_master :
    ∀ fuel,
      (∀ v, pySize v ≤ fuel → WFsets v = true → sanMap (fun x => x) v = v) ∧
      (∀ l, pySizeList l ≤ fuel → WFsetsList l = true →
        sanMapList (fun x => x) l = l) ∧
      (∀ es, pySizeEntries es ≤ fuel → WFsetsEntries es = true →
        sanMapEntries (fun x => x) es = es) ∧
      (∀ cur todo, pySizeList todo ≤ fuel → hashList todo = true →
        WFsetsList todo = true → sanSet (fun x => x) cur todo = cur) := by
  intro fuel
  induction fuel with
  | zero =>
    refine ⟨?_, ?_, ?_, ?_⟩
    · intro v hsz _; have := pySize_pos v; omega
    · intro l hsz _
      cases l with
      | nil => rfl
      | cons y ys => have := pySize_pos y; simp [pySizeList] at hsz
    · intro es hsz _
      cases es with
      | nil => rfl
      | cons kv rest =>
        obtain ⟨k, v⟩ := kv
        have := pySize_pos v
        simp [pySizeEntries] at hsz
    · intro cur todo hsz _ _
      cases todo with
      | nil => rfl
      | cons y ys => have := pySize_pos y; simp [pySizeList] at hsz
  | succ fuel ih =>
    obtain ⟨ihV, ihL, ihE, ihS⟩ := ih
    have hV : ∀ v, pySize v ≤ fuel + 1 → WFsets v = true →
        sanMap (fun x => x) v = v := by
      intro v hsz hwf
      cases v with
      | vdict es =>
        have : pySizeEntries es ≤ fuel := by simp [pySize] at hsz; omega
        simp [sanMap, ihE es this (by simpa [WFsets] using hwf)]
      | vidict es =>
        have : pySizeEntries es ≤ fuel := by simp [pySize] at hsz; omega
        simp [sanMap, ihE es this (by simpa [WFsets] using hwf)]
      | vlist xs =>
        have : pySizeList xs ≤ fuel := by simp [pySize] at hsz; omega
        simp [sanMap, ihL xs this (by simpa [WFsets] using hwf)]
      | vtuple xs =>
        have : pySizeList xs ≤ fuel := by simp [pySize] at hsz; omega
        simp [sanMap, ihL xs this (by simpa [WFsets] using hwf)]
      | vset xs =>
        have hs : pySizeList xs ≤ fuel := by simp [pySize] at hsz; omega
        simp [WFsets] at hwf
        simp [sanMap, ihS xs xs hs hwf.1 hwf.2]
      | vstr s => rfl
      | vint n => rfl
      | vbool b => rfl
      | vnone => rfl
      | vdate n => rfl
      | vdatetime n => rfl
      | vdata s => rfl
    have hL : ∀ l, pySizeList l ≤ fuel + 1 → WFsetsList l = true →
        sanMapList (fun x => x) l = l := by
      intro l hsz hwf
      cases l with
      | nil => rfl
      | cons x xs =>
        simp [WFsetsList] at hwf
        have h1 : pySize x ≤ fuel := by simp [pySizeList] at hsz; omega
        have h2 : pySizeList xs ≤ fuel := by
          have := pySize_pos x
          simp [pySizeList] at hsz; omega
        simp [sanMapList, ihV x h1 hwf.1, ihL xs h2 hwf.2]
    have hE : ∀ es, pySizeEntries es ≤ fuel + 1 → WFsetsEntries es = true →
        sanMapEntries (fun x => x) es = es := by
      intro es hsz hwf
      cases es with
      | nil => rfl
      | cons kv rest =>
        obtain ⟨k, v⟩ := kv
        simp [WFsetsEntries] at hwf
        have h1 : pySize v ≤ fuel := by simp [pySizeEntries] at hsz; omega
        have h2 : pySizeEntries rest ≤ fuel := by
          have := pySize_pos v
          simp [pySizeEntries] at hsz; omega
        simp [sanMapEntries, ihV v h1 hwf.1, ihE rest h2 hwf.2]
    have hS : ∀ cur todo, pySizeList todo ≤ fuel + 1 → hashList todo = true →
        WFsetsList todo = true → sanSet (fun x => x) cur todo = cur := by
      intro cur todo hsz hh hwf
      cases todo with
      | nil => rfl
      | cons val rest =>
        simp [hashList] at hh
        simp [WFsetsList] at hwf
        have h1 : pySize val ≤ fuel := by simp [pySizeList] at hsz; omega
        have h2 : pySizeList rest ≤ fuel := by
          have := pySize_pos val
          simp [pySizeList] at hsz; omega
        have hid : sanMap (fun x => x) val = val := ihV val h1 hwf.1
        have hre : pyEq val val = true := pyEq_refl_hashable hh.1
        simp [sanSet, hid, hre, ihS cur rest h2 hh.2 hwf.2]
    exact ⟨hV, hL, hE, hS⟩

theorem sanMap_id {v : Value} (hwf : WFsets v = true) :
    sanMap (fun x => x) v = v :=
  (sanMap_id_master (pySize v)).1 v (le_refl _) hwf

theorem residue_id {s : Value} (hwf : WFsets s = true) :
    residue (fun x => x) s = s := by
  cases s with
  | vdict es => simpa [residue] using sanMap_id hwf
  | vidict es => simpa [residue] using sanMap_id hwf
  | vlist xs => simpa [residue] using sanMap_id hwf
  | vset xs => simpa [residue] using sanMap_id hwf
  | vtuple xs => rfl
  | vstr s => rfl
  | vint n => rfl
  | vbool b => rfl
  | vnone => rfl
  | vdate n => rfl
  | vdatetime n => rfl
  | vdata s => rfl

theorem WFsets_nodes :
    ∀ fuel,
      (∀ v, pySize v ≤ fuel → WFsets v = true → ∀ s ∈ nodes v, WFsets s = true) ∧
      (∀ l, pySizeList l ≤ fuel → WFsetsList l = true →
        ∀ s ∈ nodesList l, WFsets s = true) ∧
      (∀ es, pySizeEntries es ≤ fuel → WFsetsEntries es = true →
        ∀ s ∈ nodesEntries es, WFsets s = true) := by
  intro fuel
  induction fuel with
  | zero =>
    refine ⟨?_, ?_, ?_⟩
    · intro v hsz _; have := pySize_pos v; omega
    · intro l hsz _
      cases l with
      | nil => intro s hs; cases hs
      | cons y ys => have := pySize_pos y; simp [pySizeList] at hsz
    · intro es hsz _
      cases es with
      | nil => intro s hs; cases hs
      | cons kv rest =>
        obtain ⟨k, v⟩ := kv
        have := pySize_pos v
        simp [pySizeEntries] at hsz
  | succ fuel ih =>
    obtain ⟨ihV, ihL, ihE⟩ := ih
    have hV : ∀ v, pySize v ≤ fuel + 1 → WFsets v = true →
        ∀ s ∈ nodes v, WFsets s = true := by
      intro v hsz hwf s hs
      rcases List.mem_cons.mp hs with rfl | hs2
      · exact hwf
      · cases v with
        | vdict es =>
          have hb : pySizeEntries es ≤ fuel := by simp [pySize] at hsz; omega
          exact ihE es hb (by simpa [WFsets] using hwf) s (by simpa [nodesKids] using hs2)
        | vidict es =>
          have hb : pySizeEntries es ≤ fuel := by simp [pySize] at hsz; omega
          exact ihE es hb (by simpa [WFsets] using hwf) s (by simpa [nodesKids] using hs2)
        | vlist xs =>
          have hb : pySizeList xs ≤ fuel := by simp [pySize] at hsz; omega
          exact ihL xs hb (by simpa [WFsets] using hwf) s (by simpa [nodesKids] using hs2)
        | vtuple xs =>
          have hb : pySizeList xs ≤ fuel := by simp [pySize] at hsz; omega
          exact ihL xs hb (by simpa [WFsets] using hwf) s (by simpa [nodesKids] using hs2)
        | vset xs =>
          have hb : pySizeList xs ≤ fuel := by simp [pySize] at hsz; omega
          simp [WFsets] at hwf
          exact ihL xs hb hwf.2 s (by simpa [nodesKids] using hs2)
        | vstr a => simp [nodesKids] at hs2
        | vint a => simp [nodesKids] at hs2
        | vbool a => simp [nodesKids] at hs2
        | vnone => simp [nodesKids] at hs2
        | vdate a => simp [nodesKids] at hs2
        | vdatetime a => simp [nodesKids] at hs2
        | vdata a => simp [nodesKids] at hs2
    have hL : ∀ l, pySizeList l ≤ fuel + 1 → WFsetsList l = true →
        ∀ s ∈ nodesList l, WFsets s = true := by
      intro l hsz hwf s hs
      cases l with
      | nil => cases hs
      | cons x xs =>
        simp [WFsetsList] at hwf
        have h1 : pySize x ≤ fuel := by simp [pySizeList] at hsz; omega
        have h2 : pySizeList xs ≤ fuel := by
          have := pySize_pos x
          simp [pySizeList] at hsz; omega
        rw [show nodesList (x :: xs) = nodes x ++ nodesList xs from rfl] at hs
        rcases List.mem_append.mp hs with h | h
        · exact hV x (by omega) hwf.1 s h
        · exact ihL xs h2 hwf.2 s h
    have hE : ∀ es, pySizeEntries es ≤ fuel + 1 → WFsetsEntries es = true →
        ∀ s ∈ nodesEntries es, WFsets s = true := by
      intro es hsz hwf s hs
      cases es with
      | nil => cases hs
      | cons kv rest =>
        obtain ⟨k, v⟩ := kv
        simp [WFsetsEntries] at hwf
        have h1 : pySize v ≤ fuel := by simp [pySizeEntries] at hsz; omega
        have h2 : pySizeEntries rest ≤ fuel := by
          have := pySize_pos v
          simp [pySizeEntries] at hsz; omega
        rw [show nodesEntries ((k, v) :: rest) = nodes v ++ nodesEntries rest from rfl] at hs
        rcases List.mem_append.mp hs with h | h
        · exact hV v (by omega) hwf.1 s h
        · exact ihE rest h2 hwf.2 s h
    exact ⟨hV, hL, hE⟩

theorem WFsets_of_node {v s : Value} (hwf : WFsets v = true) (hs : s ∈ nodes v) :
    WFsets s = true :=
  (WFsets_nodes (pySize v)).1 v (le_refl _) hwf s hs

/-- C2 amended: sanitization is the identity when no rule applies,
provided the visited sub-value occurrences are pairwise distinct under
Python `==` (and sets hold only hashable elements, as CPython enforces):
for every such value and every rule list none of whose predicates holds
on any visited occurrence, `_validate_data` returns the value unchanged.
(Without the distinctness proviso the visited list nulls a later
duplicate, see the counterexample.) -/
theorem validate_identity_on_distinct_subvalues
    (fuel : Nat) (funcs : List Rule) (v : Value)
    (hsz : pySize v ≤ fuel)
    (hwf : WFsets v = true)
    (hdist : (nodes v).Pairwise (fun s t => pyEq t s = false))
    (hnofire : ∀ s ∈ nodes v, ∀ r ∈ funcs, r.is_invalid s = false) :
    _validate_data fuel v funcs = .ok v := by
  have hok : ∀ s ∈ nodes v, RuleOK funcs (fun x => x) s := by
    intro s hs
    have happ := applyRules_nofire (hnofire s hs)
    exact ⟨fun _ => happ, fun hc => ⟨false, happ, hc⟩⟩
  have hpw : (nodes v).Pairwise (SanRel (fun x => x)) := by
    refine List.Pairwise.imp_of_mem ?_ hdist
    intro s t hs ht h
    refine ⟨h, ?_⟩
    rw [residue_id (WFsets_of_node hwf hs)]
    exact h
  have hf : ∀ t ∈ nodes v, ∀ u ∈ ([] : List Value), pyEq t u = false := by
    intro t _ u hu; cases hu
  have hm := (checkRec_master fuel).1 funcs (fun x => x) [] v hsz hok hpw hf
  rw [sanMap_id hwf] at hm
  unfold _validate_data
  rw [hm]

theorem validate_identity_on_distinct_subvalues_witness :
    _validate_data 9 (Value.vlist [Value.vint 1, Value.vstr "a"]) jsonFuncs =
      .ok (Value.vlist [Value.vint 1, Value.vstr "a"]) :=
  validate_identity_on_distinct_subvalues 9 jsonFuncs
    (Value.vlist [Value.vint 1, Value.vstr "a"])
    (by decide) (by decide) (by decide) (by decide)

/-- The per-scalar outcome of the JSON rule pass: `plistlib.Data` payloads
and dates/datetimes become strings, everything else is untouched. -/
def jsonF : Value → Value
  | .vdata s => .vstr s
  | .vdate n => .vstr ("date-" ++ Nat.repr n)
  | .vdatetime n => .vstr ("datetime-" ++ Nat.repr n)
  | v => v

/-- The per-scalar outcome of the Property List rule pass away from `None`
(where that pass raises `TypeError` instead). -/
def plistF : Value → Value
  | .vdate n => .vstr ("date-" ++ Nat.repr n)
  | .vdatetime n => .vstr ("datetime-" ++ Nat.repr n)
  | v => v

theorem RuleOK_json : ∀ s, RuleOK jsonFuncs jsonF s := by
  intro s
  cases s with
  | vdata a =>
    refine ⟨fun hc => by simp [isCont] at hc, fun _ => ⟨true, ?_, rfl⟩⟩
    simp [applyRules, jsonFuncs, isDataB, isDateB, isDatetimeB, dataAttrFn,
      jsonF]
  | vdate n =>
    refine ⟨fun hc => by simp [isCont] at hc, fun _ => ⟨true, ?_, rfl⟩⟩
    simp [applyRules, jsonFuncs, isDataB, isDateB, isDatetimeB, pyStrFn,
      jsonF]
  | vdatetime n =>
    refine ⟨fun hc => by simp [isCont] at hc, fun _ => ⟨true, ?_, rfl⟩⟩
    simp [applyRules, jsonFuncs, isDataB, isDateB, isDatetimeB, pyStrFn,
      jsonF]
  | vstr a =>
    exact ⟨fun hc => by simp [isCont] at hc, fun _ => ⟨false, rfl, rfl⟩⟩
  | vint n =>
    exact ⟨fun hc => by simp [isCont] at hc, fun _ => ⟨false, rfl, rfl⟩⟩
  | vbool b =>
    exact ⟨fun hc => by simp [isCont] at hc, fun _ => ⟨false, rfl, rfl⟩⟩
  | vnone =>
    exact ⟨fun hc => by simp [isCont] at hc, fun _ => ⟨false, rfl, rfl⟩⟩
  | vdict es => exact ⟨fun _ => rfl, fun hc => by simp [isCont] at hc⟩
  | vidict es => exact ⟨fun _ => rfl, fun hc => by simp [isCont] at hc⟩
  | vlist xs => exact ⟨fun _ => rfl, fun hc => by simp [isCont] at hc⟩
  | vtuple xs => exact ⟨fun _ => rfl, fun hc => by simp [isCont] at hc⟩
  | vset xs => exact ⟨fun _ => rfl, fun hc => by simp [isCont] at hc⟩

theorem RuleOK_plist : ∀ s, isNoneB s = false → RuleOK plistFuncs plistF s := by
  intro s hnn
  cases s with
  | vnone => simp [isNoneB] at hnn
  | vdate n =>
    refine ⟨fun hc => by simp [isCont] at hc, fun _ => ⟨true, ?_, rfl⟩⟩
    simp [applyRules, plistFuncs, isDateB, isNoneB, pyStrFn, plistF]
  | vdatetime n =>
    refine ⟨fun hc => by simp [isCont] at hc, fun _ => ⟨true, ?_, rfl⟩⟩
    simp [applyRules, plistFuncs, isDateB, isNoneB, pyStrFn, plistF]
  | vstr a =>
    exact ⟨fun hc => by simp [isCont] at hc, fun _ => ⟨false, rfl, rfl⟩⟩
  | vint n =>
    exact ⟨fun hc => by simp [isCont] at hc, fun _ => ⟨false, rfl, rfl⟩⟩
  | vbool b =>
    exact ⟨fun hc => by simp [isCont] at hc, fun _ => ⟨false, rfl, rfl⟩⟩
  | vdata a =>
    exact ⟨fun hc => by simp [isCont] at hc, fun _ => ⟨false, rfl, rfl⟩⟩
  | vdict es => exact ⟨fun _ => rfl, fun hc => by simp [isCont] at hc⟩
  | vidict es => exact ⟨fun _ => rfl, fun hc => by simp [isCont] at hc⟩
  | vlist xs => exact ⟨fun _ => rfl, fun hc => by simp [isCont] at hc⟩
  | vtuple xs => exact ⟨fun _ => rfl, fun hc => by simp [isCont] at hc⟩
  | vset xs => exact ⟨fun _ => rfl, fun hc => by simp [isCont] at hc⟩

theorem mem_nodesList {t : Value} {l : List Value} :
    t ∈ nodesList l ↔ ∃ u ∈ l, t ∈ nodes u := by
  induction l with
  | nil => simp [nodesList]
  | cons x xs ih =>
    rw [show nodesList (x :: xs) = nodes x ++ nodesList xs from rfl]
    simp [List.mem_append, ih]

theorem mem_nodesEntries {t : Value} {es : List (String × Value)} :
    t ∈ nodesEntries es ↔ ∃ kv ∈ es, t ∈ nodes kv.2 := by
  induction es with
  | nil => simp [nodesEntries]
  | cons kv rest ih =>
    obtain ⟨k, v⟩ := kv
    rw [show nodesEntries ((k, v) :: rest) = nodes v ++ nodesEntries rest from rfl]
    simp [List.mem_append, ih]

theorem setFold_mem {g : Value → Value} :
    ∀ (todo cur : List Value) (u : Value), u ∈ setFold g cur todo →
      (u ∈ cur ∧ ∀ val ∈ todo, pyEq (g val) val = false → pyEq u val = false) ∨
      (∃ t ∈ todo, u = g t) := by
  intro todo
  induction todo with
  | nil =>
    intro cur u hu
    exact Or.inl ⟨hu, by intro val hval; cases hval⟩
  | cons val rest ih =>
    intro cur u hu
    rw [show setFold g cur (val :: rest) =
        setFold g (if pyEq (g val) val then cur
          else pyAdd (pyRemove cur val) (g val)) rest from rfl] at hu
    rcases ih _ u hu with ⟨hin, hprop⟩ | ⟨t, ht, rfl⟩
    · by_cases hch : pyEq (g val) val = true
      · rw [if_pos hch] at hin
        refine Or.inl ⟨hin, ?_⟩
        intro w hw hwch
        rcases List.mem_cons.mp hw with rfl | hw2
        · rw [hch] at hwch; cases hwch
        · exact hprop w hw2 hwch
      · have hch2 : pyEq (g val) val = false := by
          revert hch; cases pyEq (g val) val <;> simp
        rw [if_neg (by simp [hch2])] at hin
        unfold pyAdd at hin
        by_cases hmem : ((pyRemove cur val).any fun t => pyEq (g val) t) = true
        · rw [if_pos hmem] at hin
          have hfil := List.mem_filter.mp hin
          refine Or.inl ⟨hfil.1, ?_⟩
          intro w hw hwch
          rcases List.mem_cons.mp hw with rfl | hw2
          · simpa using hfil.2
          · exact hprop w hw2 hwch
        · rw [if_neg hmem] at hin
          rcases List.mem_append.mp hin with hin2 | hin2
          · have hfil := List.mem_filter.mp hin2
            refine Or.inl ⟨hfil.1, ?_⟩
            intro w hw hwch
            rcases List.mem_cons.mp hw with rfl | hw2
            · simpa using hfil.2
            · exact hprop w hw2 hwch
          · refine Or.inr ⟨val, List.mem_cons_self _ _, ?_⟩
            rw [List.mem_singleton.mp hin2]
    · exact Or.inr ⟨t, List.mem_cons_of_mem _ ht, rfl⟩

theorem sanMap_changes_dated :
    ∀ (f : Value → Value),
      (∀ fuel n, pyEqN fuel (f (.vdate n)) (.vdate n) = false) →
      (∀ fuel n, pyEqN fuel (f (.vdatetime n)) (.vdatetime n) = false) →
      ∀ fuel,
        (∀ x, hashable x = true → (nodes x).any isDateB = true →
          pyEqN fuel (sanMap f x) x = false) ∧
        (∀ xs, hashList xs = true → (nodesList xs).any isDateB = true →
          pyEqListN fuel (sanMapList f xs) xs = false) := by
  intro f hd hdt fuel
  induction fuel with
  | zero =>
    constructor
    · intro x _ _; rfl
    · intro xs _ hany
      cases xs with
      | nil => simp [nodesList] at hany
      | cons y ys => rfl
  | succ fuel ih =>
    obtain ⟨ihV, ihL⟩ := ih
    constructor
    · intro x hh hany
      cases x with
      | vdate n => exact hd (fuel + 1) n
      | vdatetime n => exact hdt (fuel + 1) n
      | vtuple xs =>
        have hany2 : (nodesList xs).any isDateB = true := by
          simpa [nodes, nodesKids, isDateB] using hany
        have hh2 : hashList xs = true := by simpa [hashable] using hh
        simpa [sanMap, pyEqN] using ihL xs hh2 hany2
      | vdict es => simp [hashable] at hh
      | vidict es => simp [hashable] at hh
      | vlist xs => simp [hashable] at hh
      | vset xs => simp [hashable] at hh
      | vstr s => simp [nodes, nodesKids, isDateB] at hany
      | vint n => simp [nodes, nodesKids, isDateB] at hany
      | vbool b => simp [nodes, nodesKids, isDateB] at hany
      | vnone => simp [nodes, nodesKids, isDateB] at hany
      | vdata s => simp [nodes, nodesKids, isDateB] at hany
    · intro xs hh hany
      cases xs with
      | nil => simp [nodesList] at hany
      | cons y ys =>
        simp [hashList] at hh
        rw [show nodesList (y :: ys) = nodes y ++ nodesList ys from rfl] at hany
        rw [List.any_append] at hany
        rw [show sanMapList f (y :: ys) = sanMap f y :: sanMapList f ys from rfl]
        rcases Bool.or_eq_true_iff.mp hany with h | h
        · rw [show pyEqListN (fuel + 1) (sanMap f y :: sanMapList f ys) (y :: ys) =
            (pyEqN fuel (sanMap f y) y && pyEqListN fuel (sanMapList f ys) ys)
            from rfl]
          rw [ihV y hh.1 h]
          rfl
        · rw [show pyEqListN (fuel + 1) (sanMap f y :: sanMapList f ys) (y :: ys) =
            (pyEqN fuel (sanMap f y) y && pyEqListN fuel (sanMapList f ys) ys)
            from rfl]
          rw [ihL ys hh.2 h]
          exact Bool.and_false _

theorem pySizeList_mem_le {x : Value} {xs : List Value} (h : x ∈ xs) :
    pySize x ≤ pySizeList xs := by
  induction xs with
  | nil => cases h
  | cons y ys ih =>
    rcases List.mem_cons.mp h with rfl | h2
    · simp [pySizeList]; omega
    · have := ih h2; simp [pySizeList]; omega

theorem WFsetsList_mem {x : Value} {xs : List Value}
    (hwf : WFsetsList xs = true) (h : x ∈ xs) : WFsets x = true := by
  induction xs with
  | nil => cases h
  | cons y ys ih =>
    simp [WFsetsList] at hwf
    rcases List.mem_cons.mp h with rfl | h2
    · exact hwf.1
    · exact ih hwf.2 h2

theorem hashList_mem {x : Value} {xs : List Value}
    (hh : hashList xs = true) (h : x ∈ xs) : hashable x = true := by
  induction xs with
  | nil => cases h
  | cons y ys ih =>
    simp [hashList] at hh
    rcases List.mem_cons.mp h with rfl | h2
    · exact hh.1
    · exact ih hh.2 h2

theorem sanMap_no_dates :
    ∀ (f : Value → Value),
      (∀ s, isCont s = false → isCont (f s) = false) →
      (∀ s, isCont s = false → isDateB (f s) = false) →
      (∀ fuel n, pyEqN fuel (f (.vdate n)) (.vdate n) = false) →
      (∀ fuel n, pyEqN fuel (f (.vdatetime n)) (.vdatetime n) = false) →
      ∀ fuel,
        (∀ v, pySize v ≤ fuel → WFsets v = true →
          ∀ t ∈ nodes (sanMap f v), isDateB t = false) ∧
        (∀ l, pySizeList l ≤ fuel → WFsetsList l = true →
          ∀ t ∈ nodesList (sanMapList f l), isDateB t = false) ∧
        (∀ es, pySizeEntries es ≤ fuel → WFsetsEntries es = true →
          ∀ t ∈ nodesEntries (sanMapEntries f es), isDateB t = false) := by
  intro f hS hND hd hdt fuel
  induction fuel with
  | zero =>
    refine ⟨?_, ?_, ?_⟩
    · intro v hsz _; have := pySize_pos v; omega
    · intro l hsz _
      cases l with
      | nil => intro t ht; simp [sanMapList, nodesList] at ht
      | cons y ys => have := pySize_pos y; simp [pySizeList] at hsz
    · intro es hsz _
      cases es with
      | nil => intro t ht; simp [sanMapEntries, nodesEntries] at ht
      | cons kv rest =>
        obtain ⟨k, v⟩ := kv
        have := pySize_pos v
        simp [pySizeEntries] at hsz
  | succ fuel ih =>
    obtain ⟨ihV, ihL, ihE⟩ := ih
    have hV : ∀ v, pySize v ≤ fuel + 1 → WFsets v = true →
        ∀ t ∈ nodes (sanMap f v), isDateB t = false := by
      intro v hsz hwf t ht
      cases v with
      | vdict es =>
        have hb : pySizeEntries es ≤ fuel := by simp [pySize] at hsz; omega
        rw [show sanMap f (Value.vdict es) = .vdict (sanMapEntries f es) from rfl]
          at ht
        rcases List.mem_cons.mp ht with rfl | h2
        · rfl
        · exact ihE es hb (by simpa [WFsets] using hwf) t
            (by simpa [nodesKids] using h2)
      | vidict es =>
        have hb : pySizeEntries es ≤ fuel := by simp [pySize] at hsz; omega
        rw [show sanMap f (Value.vidict es) = .vidict (sanMapEntries f es) from rfl]
          at ht
        rcases List.mem_cons.mp ht with rfl | h2
        · rfl
        · exact ihE es hb (by simpa [WFsets] using hwf) t
            (by simpa [nodesKids] using h2)
      | vlist xs =>
        have hb : pySizeList xs ≤ fuel := by simp [pySize] at hsz; omega
        rw [show sanMap f (Value.vlist xs) = .vlist (sanMapList f xs) from rfl]
          at ht
        rcases List.mem_cons.mp ht with rfl | h2
        · rfl
        · exact ihL xs hb (by simpa [WFsets] using hwf) t
            (by simpa [nodesKids] using h2)
      | vtuple xs =>
        have hb : pySizeList xs ≤ fuel := by simp [pySize] at hsz; omega
        rw [show sanMap f (Value.vtuple xs) = .vtuple (sanMapList f xs) from rfl]
          at ht
        rcases List.mem_cons.mp ht with rfl | h2
        · rfl
        · exact ihL xs hb (by simpa [WFsets] using hwf) t
            (by simpa [nodesKids] using h2)
      | vset xs =>
        have hb : pySizeList xs ≤ fuel := by simp [pySize] at hsz; omega
        simp [WFsets] at hwf
        rw [show sanMap f (Value.vset xs) = .vset (sanSet f xs xs) from rfl] at ht
        rcases List.mem_cons.mp ht with rfl | h2
        · rfl
        · have h3 : t ∈ nodesList (sanSet f xs xs) := by
            simpa [nodesKids] using h2
          obtain ⟨u, hu, htu⟩ := mem_nodesList.mp h3
          rw [sanSet_eq_setFold] at hu
          rcases setFold_mem xs xs u hu with ⟨huin, hprop⟩ | ⟨w, hw, rfl⟩
          · have hhu : hashable u = true := hashList_mem hwf.1 huin
            have hud : ((nodes u).any isDateB) = false := by
              by_cases hcase : ((nodes u).any isDateB) = true
              · have hch := (sanMap_changes_dated f hd hdt
                  (pySize (sanMap f u) + pySize u)).1 u hhu hcase
                have := hprop u huin (by simpa [pyEq] using hch)
                rw [pyEq_refl_hashable hhu] at this
                cases this
              · revert hcase; cases (nodes u).any isDateB <;> simp
            rw [List.any_eq_false] at hud
            simpa using hud t htu
          · have hwm : pySize w ≤ fuel := le_trans (pySizeList_mem_le hw) hb
            exact ihV w hwm (WFsetsList_mem hwf.2 hw) t htu
      | vstr s =>
        rw [show sanMap f (Value.vstr s) = f (Value.vstr s) from rfl] at ht
        rw [nodes, nodesKids_scalar _ (hS (Value.vstr s) rfl)] at ht
        rcases List.mem_cons.mp ht with rfl | h2
        · exact hND (Value.vstr s) rfl
        · cases h2
      | vint n =>
        rw [show sanMap f (Value.vint n) = f (Value.vint n) from rfl] at ht
        rw [nodes, nodesKids_scalar _ (hS (Value.vint n) rfl)] at ht
        rcases List.mem_cons.mp ht with rfl | h2
        · exact hND (Value.vint n) rfl
        · cases h2
      | vbool b =>
        rw [show sanMap f (Value.vbool b) = f (Value.vbool b) from rfl] at ht
        rw [nodes, nodesKids_scalar _ (hS (Value.vbool b) rfl)] at ht
        rcases List.mem_cons.mp ht with rfl | h2
        · exact hND (Value.vbool b) rfl
        · cases h2
      | vnone =>
        rw [show sanMap f Value.vnone = f Value.vnone from rfl] at ht
        rw [nodes, nodesKids_scalar _ (hS Value.vnone rfl)] at ht
        rcases List.mem_cons.mp ht with rfl | h2
        · exact hND Value.vnone rfl
        · cases h2
      | vdate n =>
        rw [show sanMap f (Value.vdate n) = f (Value.vdate n) from rfl] at ht
        rw [nodes, nodesKids_scalar _ (hS (Value.vdate n) rfl)] at ht
        rcases List.mem_cons.mp ht with rfl | h2
        · exact hND (Value.vdate n) rfl
        · cases h2
      | vdatetime n =>
        rw [show sanMap f (Value.vdatetime n) = f (Value.vdatetime n) from rfl]
          at ht
        rw [nodes, nodesKids_scalar _ (hS (Value.vdatetime n) rfl)] at ht
        rcases List.mem_cons.mp ht with rfl | h2
        · exact hND (Value.vdatetime n) rfl
        · cases h2
      | vdata s =>
        rw [show sanMap f (Value.vdata s) = f (Value.vdata s) from rfl] at ht
        rw [nodes, nodesKids_scalar _ (hS (Value.vdata s) rfl)] at ht
        rcases List.mem_cons.mp ht with rfl | h2
        · exact hND (Value.vdata s) rfl
        · cases h2
    have hL : ∀ l, pySizeList l ≤ fuel + 1 → WFsetsList l = true →
        ∀ t ∈ nodesList (sanMapList f l), isDateB t = false := by
      intro l hsz hwf t ht
      cases l with
      | nil => simp [sanMapList, nodesList] at ht
      | cons x xs =>
        simp [WFsetsList] at hwf
        have h1 : pySize x ≤ fuel + 1 := by simp [pySizeList] at hsz; omega
        have h2 : pySizeList xs ≤ fuel := by
          have := pySize_pos x
          simp [pySizeList] at hsz; omega
        rw [show sanMapList f (x :: xs) = sanMap f x :: sanMapList f xs from rfl,
          show nodesList (sanMap f x :: sanMapList f xs) =
            nodes (sanMap f x) ++ nodesList (sanMapList f xs) from rfl] at ht
        rcases List.mem_append.mp ht with h | h
        · exact hV x h1 hwf.1 t h
        · exact ihL xs h2 hwf.2 t h
    have hE : ∀ es, pySizeEntries es ≤ fuel + 1 → WFsetsEntries es = true →
        ∀ t ∈ nodesEntries (sanMapEntries f es), isDateB t = false := by
      intro es hsz hwf t ht
      cases es with
      | nil => simp [sanMapEntries, nodesEntries] at ht
      | cons kv rest =>
        obtain ⟨k, v⟩ := kv
        simp [WFsetsEntries] at hwf
        have h1 : pySize v ≤ fuel + 1 := by simp [pySizeEntries] at hsz; omega
        have h2 : pySizeEntries rest ≤ fuel := by
          have := pySize_pos v
          simp [pySizeEntries] at hsz; omega
        rw [show sanMapEntries f ((k, v) :: rest) =
            (k, sanMap f v) :: sanMapEntries f rest from rfl,
          show nodesEntries ((k, sanMap f v) :: sanMapEntries f rest) =
            nodes (sanMap f v) ++ nodesEntries (sanMapEntries f rest) from rfl]
          at ht
        rcases List.mem_append.mp ht with h | h
        · exact hV v h1 hwf.1 t h
        · exact ihE rest h2 hwf.2 t h
    exact ⟨hV, hL, hE⟩

theorem jsonF_scalar : ∀ s, isCont s = false → isCont (jsonF s) = false := by
  intro s h
  cases s <;> first
    | rfl
    | simp [isCont] at h

theorem jsonF_nodate : ∀ s, isCont s = false → isDateB (jsonF s) = false := by
  intro s h
  cases s <;> first
    | rfl
    | simp [isCont] at h

theorem jsonF_changes_date :
    ∀ fuel n, pyEqN fuel (jsonF (.vdate n)) (.vdate n) = false := by
  intro fuel n
  cases fuel <;> rfl

theorem jsonF_changes_datetime :
    ∀ fuel n, pyEqN fuel (jsonF (.vdatetime n)) (.vdatetime n) = false := by
  intro fuel n
  cases fuel <;> rfl

theorem plistF_scalar : ∀ s, isCont s = false → isCont (plistF s) = false := by
  intro s h
  cases s <;> first
    | rfl
    | simp [isCont] at h

theorem plistF_nodate : ∀ s, isCont s = false → isDateB (plistF s) = false := by
  intro s h
  cases s <;> first
    | rfl
    | simp [isCont] at h

theorem plistF_changes_date :
    ∀ fuel n, pyEqN fuel (plistF (.vdate n)) (.vdate n) = false := by
  intro fuel n
  cases fuel <;> rfl

theorem plistF_changes_datetime :
    ∀ fuel n, pyEqN fuel (plistF (.vdatetime n)) (.vdatetime n) = false := by
  intro fuel n
  cases fuel <;> rfl

instance (f : Value → Value) (s t : Value) : Decidable (SanRel f s t) := by
  unfold SanRel
  infer_instance

/-- C5 amended: with the JSON rule list (and with the Plist rule list on
values containing no `None`), on values whose visited occurrences are
pairwise distinct in the `SanRel` sense (no occurrence equal to an
earlier occurrence or to its processed residue) and whose sets hold only
hashable elements, sanitization computes the structural map of the rule
pass, and its result contains no date or datetime occurrence anywhere —
every date was replaced — while `str(date)` results are strings that no
rule (in particular neither date rule) ever matches again, so no repeated
replacement can occur.  (With duplicate `==` occurrences of a date, the
later occurrence becomes `None` instead — see the counterexample.) -/
theorem date_rules_stringify_dates
    (fuel : Nat) (v : Value)
    (hsz : pySize v ≤ fuel)
    (hwf : WFsets v = true) :
    ((nodes v).Pairwise (SanRel jsonF) →
      _validate_data fuel v jsonFuncs = .ok (sanMap jsonF v) ∧
      ∀ t ∈ nodes (sanMap jsonF v), isDateB t = false) ∧
    ((∀ s ∈ nodes v, isNoneB s = false) →
      (nodes v).Pairwise (SanRel plistF) →
      _validate_data fuel v plistFuncs = .ok (sanMap plistF v) ∧
      ∀ t ∈ nodes (sanMap plistF v), isDateB t = false) ∧
    (∀ n : Nat,
      isStrB (jsonF (Value.vdate n)) = true ∧
      isStrB (jsonF (Value.vdatetime n)) = true ∧
      isStrB (plistF (Value.vdate n)) = true ∧
      isStrB (plistF (Value.vdatetime n)) = true ∧
      (∀ r ∈ jsonFuncs, r.is_invalid (jsonF (Value.vdate n)) = false) ∧
      (∀ r ∈ plistFuncs, r.is_invalid (plistF (Value.vdate n)) = false)) := by
  refine ⟨?_, ?_, ?_⟩
  · intro hpw
    have hok : ∀ s ∈ nodes v, RuleOK jsonFuncs jsonF s := fun s _ => RuleOK_json s
    have hf : ∀ t ∈ nodes v, ∀ u ∈ ([] : List Value), pyEq t u = false := by
      intro t _ u hu; cases hu
    have hm := (checkRec_master fuel).1 jsonFuncs jsonF [] v hsz hok hpw hf
    constructor
    · unfold _validate_data; rw [hm]
    · exact (sanMap_no_dates jsonF jsonF_scalar jsonF_nodate jsonF_changes_date
        jsonF_changes_datetime (pySize v)).1 v (le_refl _) hwf
  · intro hnn hpw
    have hok : ∀ s ∈ nodes v, RuleOK plistFuncs plistF s :=
      fun s hs => RuleOK_plist s (hnn s hs)
    have hf : ∀ t ∈ nodes v, ∀ u ∈ ([] : List Value), pyEq t u = false := by
      intro t _ u hu; cases hu
    have hm := (checkRec_master fuel).1 plistFuncs plistF [] v hsz hok hpw hf
    constructor
    · unfold _validate_data; rw [hm]
    · exact (sanMap_no_dates plistF plistF_scalar plistF_nodate plistF_changes_date
        plistF_changes_datetime (pySize v)).1 v (le_refl _) hwf
  · intro n
    refine ⟨rfl, rfl, rfl, rfl, ?_, ?_⟩ <;>
      (intro r hr; fin_cases hr <;> rfl)

theorem date_rules_stringify_dates_witness :
    _validate_data 9 (Value.vlist [Value.vdate 7]) jsonFuncs =
      .ok (sanMap jsonF (Value.vlist [Value.vdate 7])) ∧
    ∀ t ∈ nodes (sanMap jsonF (Value.vlist [Value.vdate 7])),
      isDateB t = false :=
  (date_rules_stringify_dates 9 (Value.vlist [Value.vdate 7])
    (by decide) (by decide)).1 (by decide)

theorem setFold_characterize (g : Value → Value) :
    ∀ (todo A B : List Value),
      (∀ val ∈ todo, pyEq val val = true) →
      todo.Pairwise (fun x y => pyEq x y = false ∧ pyEq y x = false) →
      (∀ val ∈ todo, ∀ a ∈ A, pyEq a val = false) →
      (∀ val ∈ todo, ∀ b ∈ B, pyEq b val = false) →
      (∀ val ∈ todo, pyEq (g val) val = false →
        (∀ y ∈ todo, pyEq (g val) y = false) ∧
        (∀ a ∈ A, pyEq (g val) a = false) ∧
        (∀ b ∈ B, pyEq (g val) b = false)) →
      todo.Pairwise (fun x y => pyEq (g x) x = false → pyEq (g y) y = false →
        pyEq (g y) (g x) = false) →
      setFold g (A ++ todo ++ B) todo =
        A ++ todo.filter (fun val => pyEq (g val) val) ++
          (B ++ (todo.filter (fun val => !(pyEq (g val) val))).map g) := by
  intro todo
  induction todo with
  | nil =>
    intro A B _ _ _ _ _ _
    simp [setFold]
  | cons val rest ih =>
    intro A B hrefl hdist hA hB himg himg2
    obtain ⟨hd1, hdist2⟩ := List.pairwise_cons.mp hdist
    obtain ⟨hi1, himg2'⟩ := List.pairwise_cons.mp himg2
    rw [show setFold g (A ++ (val :: rest) ++ B) (val :: rest) =
        setFold g (if pyEq (g val) val then A ++ (val :: rest) ++ B
          else pyAdd (pyRemove (A ++ (val :: rest) ++ B) val) (g val)) rest
        from rfl]
    by_cases hch : pyEq (g val) val = true
    · rw [if_pos hch]
      have harr : A ++ (val :: rest) ++ B = (A ++ [val]) ++ rest ++ B := by
        simp
      rw [harr]
      have hA' : ∀ w ∈ rest, ∀ a ∈ A ++ [val], pyEq a w = false := by
        intro w hw a ha
        rcases List.mem_append.mp ha with h | h
        · exact hA w (List.mem_cons_of_mem _ hw) a h
        · rw [List.mem_singleton.mp h]
          exact (hd1 w hw).1
      have hrest := ih (A ++ [val]) B
        (fun w hw => hrefl w (List.mem_cons_of_mem _ hw)) hdist2 hA'
        (fun w hw b hb => hB w (List.mem_cons_of_mem _ hw) b hb)
        (fun w hw hwch => by
          obtain ⟨h1, h2, h3⟩ := himg w (List.mem_cons_of_mem _ hw) hwch
          refine ⟨fun y hy => h1 y (List.mem_cons_of_mem _ hy), ?_, h3⟩
          intro a ha
          rcases List.mem_append.mp ha with h | h
          · exact h2 a h
          · rw [List.mem_singleton.mp h]
            exact h1 val (List.mem_cons_self _ _))
        himg2'
      rw [hrest]
      rw [show (val :: rest).filter (fun w => pyEq (g w) w) =
        val :: rest.filter (fun w => pyEq (g w) w) from by simp [List.filter, hch]]
      rw [show (val :: rest).filter (fun w => !(pyEq (g w) w)) =
        rest.filter (fun w => !(pyEq (g w) w)) from by simp [List.filter, hch]]
      simp
    · have hch2 : pyEq (g val) val = false := by
        revert hch; cases pyEq (g val) val <;> simp
      rw [if_neg (by simp [hch2])]
      obtain ⟨hi1', hi2', hi3'⟩ := himg val (List.mem_cons_self _ _) hch2
      have hvv : pyEq val val = true := hrefl val (List.mem_cons_self _ _)
      have hrem : pyRemove (A ++ (val :: rest) ++ B) val = A ++ rest ++ B := by
        unfold pyRemove
        have e1 : (A.filter fun t => !(pyEq t val)) = A :=
          List.filter_eq_self.mpr (fun a ha => by
            simp [hA val (List.mem_cons_self _ _) a ha])
        have e2 : ((val :: rest).filter fun t => !(pyEq t val)) = rest := by
          rw [List.filter_cons]
          simp only [hvv, Bool.not_true, Bool.false_eq_true, if_false]
          exact List.filter_eq_self.mpr (fun w hw => by simp [(hd1 w hw).2])
        have e3 : (B.filter fun t => !(pyEq t val)) = B :=
          List.filter_eq_self.mpr (fun b hb => by
            simp [hB val (List.mem_cons_self _ _) b hb])
        rw [List.filter_append, List.filter_append, e1, e2, e3]
      rw [hrem]
      have hany : ((A ++ rest ++ B).any fun t => pyEq (g val) t) = false := by
        rw [List.any_eq_false]
        intro t ht
        simp only [List.mem_append] at ht
        rcases ht with (h2 | h2) | h2
        · simp [hi2' t h2]
        · simp [hi1' t (List.mem_cons_of_mem _ h2)]
        · simp [hi3' t h2]
      have hadd : pyAdd (A ++ rest ++ B) (g val) = A ++ rest ++ (B ++ [g val]) := by
        unfold pyAdd
        rw [hany]
        simp
      rw [hadd]
      have hB' : ∀ w ∈ rest, ∀ b ∈ B ++ [g val], pyEq b w = false := by
        intro w hw b hb
        rcases List.mem_append.mp hb with h | h
        · exact hB w (List.mem_cons_of_mem _ hw) b h
        · rw [List.mem_singleton.mp h]
          exact hi1' w (List.mem_cons_of_mem _ hw)
      have hrest := ih A (B ++ [g val])
        (fun w hw => hrefl w (List.mem_cons_of_mem _ hw)) hdist2
        (fun w hw a ha => hA w (List.mem_cons_of_mem _ hw) a ha) hB'
        (fun w hw hwch => by
          obtain ⟨h1, h2, h3⟩ := himg w (List.mem_cons_of_mem _ hw) hwch
          refine ⟨fun y hy => h1 y (List.mem_cons_of_mem _ hy), h2, ?_⟩
          intro b hb
          rcases List.mem_append.mp hb with h | h
          · exact h3 b h
          · rw [List.mem_singleton.mp h]
            exact hi1 w hw hch2 hwch)
        himg2'
      rw [hrest]
      rw [show (val :: rest).filter (fun w => pyEq (g w) w) =
        rest.filter (fun w => pyEq (g w) w) from by simp [List.filter, hch2]]
      rw [show (val :: rest).filter (fun w => !(pyEq (g w) w)) =
        val :: rest.filter (fun w => !(pyEq (g w) w)) from by
          simp [List.filter, hch2]]
      simp

/-- C8 amended: the set branch removes each changed element and inserts
its sanitized form, iterating over a snapshot; the final contents are
order-independent provided the per-element sanitized form is a pure
function of the element (no interaction through the shared visited list)
whose changed outputs collide neither with the set's elements nor with
each other: then the results for any two iteration orders of the same
elements are permutations of each other.  (Without those provisos the
result genuinely depends on the order — see the counterexample.) -/
theorem set_update_order_invariant_of_pure
    (g : Value → Value) (s1 s2 : List Value)
    (hperm : s1.Perm s2)
    (hrefl : ∀ val ∈ s1, pyEq val val = true)
    (hdist : s1.Pairwise (fun x y => pyEq x y = false ∧ pyEq y x = false))
    (himg : ∀ val ∈ s1, pyEq (g val) val = false →
      ∀ y ∈ s1, pyEq (g val) y = false)
    (himg2 : s1.Pairwise (fun x y => pyEq (g x) x = false →
      pyEq (g y) y = false →
      pyEq (g y) (g x) = false ∧ pyEq (g x) (g y) = false)) :
    (setFold g s1 s1).Perm (setFold g s2 s2) := by
  have hsymm1 : Symmetric (fun x y : Value =>
      pyEq x y = false ∧ pyEq y x = false) := by
    intro x y h; exact ⟨h.2, h.1⟩
  have hsymm2 : Symmetric (fun x y : Value => pyEq (g x) x = false →
      pyEq (g y) y = false →
      pyEq (g y) (g x) = false ∧ pyEq (g x) (g y) = false) := by
    intro x y h hy hx
    exact ⟨(h hx hy).2, (h hx hy).1⟩
  have h1 := setFold_characterize g s1 [] []
    hrefl hdist (by intro val _ a ha; cases ha) (by intro val _ b hb; cases hb)
    (fun val hv hch => ⟨himg val hv hch, (by intro a ha; cases ha),
      (by intro b hb; cases hb)⟩)
    (himg2.imp (fun h hx hy => (h hx hy).1))
  have h2 := setFold_characterize g s2 [] []
    (fun val hv => hrefl val (hperm.mem_iff.mpr hv))
    ((hperm.pairwise_iff (fun hxy => hsymm1 hxy)).mp hdist)
    (by intro val _ a ha; cases ha) (by intro val _ b hb; cases hb)
    (fun val hv hch => ⟨fun y hy =>
        himg val (hperm.mem_iff.mpr hv) hch y (hperm.mem_iff.mpr hy),
      (by intro a ha; cases ha), (by intro b hb; cases hb)⟩)
    (((hperm.pairwise_iff (fun hxy => hsymm2 hxy)).mp himg2).imp (fun h hx hy => (h hx hy).1))
  simp only [List.nil_append, List.append_nil] at h1 h2
  rw [h1, h2]
  exact (hperm.filter _).append ((hperm.filter _).map g)

theorem set_update_order_invariant_of_pure_witness :
    (setFold jsonF [Value.vdate 0, Value.vint 5]
      [Value.vdate 0, Value.vint 5]).Perm
    (setFold jsonF [Value.vint 5, Value.vdate 0]
      [Value.vint 5, Value.vdate 0]) :=
  set_update_order_invariant_of_pure jsonF
    [Value.vdate 0, Value.vint 5] [Value.vint 5, Value.vdate 0]
    (List.Perm.swap (Value.vint 5) (Value.vdate 0) [])
    (by decide) (by decide) (by decide) (by decide)
